import Mathlib

/-!
# Verification of the license-token core (`streamlit_app/utils/licensing.py`)

This file embeds the license-token core of the repository in Lean:

* the URL-safe base64 codec used for the two token segments
  (`_b64url` / `_unb64url`, faithful to Python's `base64.urlsafe_b64encode`
  with stripped padding and `base64.urlsafe_b64decode` in non-strict mode,
  including its discarding of non-alphabet characters and its incremental
  padding handling);
* HMAC-SHA256 (`hmac.new(secret, body, hashlib.sha256).digest()`), with a
  full executable SHA-256;
* the JSON serializer (`json.dumps(payload, separators=(",", ":"),
  ensure_ascii=False)`) and parser (`json.loads`) on the JSON value domain;
* `sign_license`, `verify_license` (current time passed explicitly, standing
  for `time.time()`), and `plan_limits`.

Bytes are modelled as `Nat` values below 256 in `List Nat`.
-/

namespace Licensing

/-! ## URL-safe base64 codec -/

/-- The URL-safe base64 alphabet (RFC 4648 §5), as used by
`base64.urlsafe_b64encode`. -/
def b64alphabet : List Char :=
  "ABCDEFGHIJKLMNOPQRSTUVWXYZabcdefghijklmnopqrstuvwxyz0123456789-_".data

/-- Character of the URL-safe alphabet at index `i` (defined for `i < 64`). -/
def alph (i : Nat) : Char := b64alphabet.getD i 'A'

/-- Encoding of a byte list in URL-safe base64 without padding: three input
bytes yield four characters; a final group of one or two bytes yields two or
three characters (the `=` padding that `urlsafe_b64encode` would add is
stripped by `.rstrip("=")`, so it is never produced here). -/
def b64urlChars : List Nat → List Char
  | a :: b :: c :: rest =>
      alph (a / 4) :: alph (a % 4 * 16 + b / 16) ::
      alph (b % 16 * 4 + c / 64) :: alph (c % 64) :: b64urlChars rest
  | [a, b] => [alph (a / 4), alph (a % 4 * 16 + b / 16), alph (b % 16 * 4)]
  | [a] => [alph (a / 4), alph (a % 4 * 16)]
  | [] => []

/-- `_b64url(data) = base64.urlsafe_b64encode(data).decode().rstrip("=")`. -/
def _b64url (data : List Nat) : String := String.mk (b64urlChars data)

/-- The value of a character in the *standard* base64 alphabet (the table
`binascii` decodes with after `urlsafe_b64decode` has translated `-` to `+`
and `_` to `/`); `none` for characters outside the alphabet. -/
def b64val (c : Char) : Option Nat :=
  if 'A' ≤ c ∧ c ≤ 'Z' then some (c.toNat - 65)
  else if 'a' ≤ c ∧ c ≤ 'z' then some (c.toNat - 71)
  else if '0' ≤ c ∧ c ≤ '9' then some (c.toNat + 4)
  else if c = '+' then some 62
  else if c = '/' then some 63
  else none

/-- The character translation `urlsafe_b64decode` applies before decoding:
`-` becomes `+` and `_` becomes `/`; everything else is unchanged. -/
def b64translate (c : Char) : Char :=
  if c = '-' then '+' else if c = '_' then '/' else c

/-- `binascii.a2b_base64` in non-strict mode (the mode `base64.b64decode`
uses when `validate=False`): characters outside the alphabet are discarded;
a data character emits an output byte as soon as eight bits are available
(`quadPos` counts data characters within the current four-character group,
`leftChar` holds the pending bits); a `=` at `quadPos ≥ 2` counts as padding
and ends the input once the group is completed, while at `quadPos < 2` it is
ignored; input ending with a partially filled group (`quadPos ≠ 0`) is an
error. -/
def a2b : List Char → Nat → Nat → Nat → List Nat → Option (List Nat)
  | [], quadPos, _, _, out => if quadPos = 0 then some out else none
  | c :: rest, quadPos, leftChar, pads, out =>
      if c = '=' then
        if 2 ≤ quadPos ∧ 4 ≤ quadPos + (pads + 1) then some out
        else if 2 ≤ quadPos then a2b rest quadPos leftChar (pads + 1) out
        else a2b rest quadPos leftChar pads out
      else
        match b64val c with
        | none => a2b rest quadPos leftChar pads out
        | some v =>
            match quadPos with
            | 0 => a2b rest 1 v 0 out
            | 1 => a2b rest 2 (v % 16) 0 (out ++ [leftChar * 4 + v / 16])
            | 2 => a2b rest 3 (v % 4) 0 (out ++ [leftChar * 16 + v / 4])
            | _ => a2b rest 0 0 0 (out ++ [leftChar * 64 + v])

/-- `_unb64url(s)`: re-add `"=" * (-len(s) % 4)` and call
`base64.urlsafe_b64decode`.  The latter first encodes the string as ASCII
(a non-ASCII character raises, modelled as `none`), applies `b64translate`,
and decodes in non-strict mode. -/
def _unb64url (s : String) : Option (List Nat) :=
  if s.data.all (fun c => c.toNat < 128) then
    a2b (((s.data ++ List.replicate ((4 - s.length % 4) % 4) '=').map
      b64translate)) 0 0 0 []
  else none

/-! ## SHA-256 and HMAC (`hashlib.sha256`, `hmac.new(..).digest()`) -/

/-- 2^32, the word modulus of SHA-256. -/
def w32 : Nat := 4294967296

/-- Right rotation of a 32-bit word. -/
def rotr32 (x n : Nat) : Nat := ((x >>> n) ||| (x <<< (32 - n))) % w32

/-- SHA-256 `σ0`. -/
def ssig0 (x : Nat) : Nat := rotr32 x 7 ^^^ rotr32 x 18 ^^^ (x >>> 3)

/-- SHA-256 `σ1`. -/
def ssig1 (x : Nat) : Nat := rotr32 x 17 ^^^ rotr32 x 19 ^^^ (x >>> 10)

/-- SHA-256 `Σ0`. -/
def bsig0 (x : Nat) : Nat := rotr32 x 2 ^^^ rotr32 x 13 ^^^ rotr32 x 22

/-- SHA-256 `Σ1`. -/
def bsig1 (x : Nat) : Nat := rotr32 x 6 ^^^ rotr32 x 11 ^^^ rotr32 x 25

/-- SHA-256 `Ch` (complement taken within 32 bits). -/
def chFn (x y z : Nat) : Nat := (x &&& y) ^^^ ((x ^^^ 4294967295) &&& z)

/-- SHA-256 `Maj`. -/
def majFn (x y z : Nat) : Nat := (x &&& y) ^^^ (x &&& z) ^^^ (y &&& z)

/-- The 64 SHA-256 round constants. -/
def sha256K : List Nat :=
  [1116352408, 1899447441, 3049323471, 3921009573, 961987163,
   1508970993, 2453635748, 2870763221, 3624381080, 310598401,
   607225278, 1426881987, 1925078388, 2162078206, 2614888103,
   3248222580, 3835390401, 4022224774, 264347078, 604807628,
   770255983, 1249150122, 1555081692, 1996064986, 2554220882,
   2821834349, 2952996808, 3210313671, 3336571891, 3584528711,
   113926993, 338241895, 666307205, 773529912, 1294757372,
   1396182291, 1695183700, 1986661051, 2177026350, 2456956037,
   2730485921, 2820302411, 3259730800, 3345764771, 3516065817,
   3600352804, 4094571909, 275423344, 430227734, 506948616,
   659060556, 883997877, 958139571, 1322822218, 1537002063,
   1747873779, 1955562222, 2024104815, 2227730452, 2361852424,
   2428436474, 2756734187, 3204031479, 3329325298]

/-- The SHA-256 working state: eight 32-bit words. -/
structure Sha256State where
  a : Nat
  b : Nat
  c : Nat
  d : Nat
  e : Nat
  f : Nat
  g : Nat
  h : Nat
deriving DecidableEq

/-- The SHA-256 initial hash value. -/
def sha256H0 : Sha256State :=
  ⟨1779033703, 3144134277, 1013904242, 2773480762,
   1359893119, 2600822924, 528734635, 1541459225⟩

/-- Big-endian 4-byte group to 32-bit words (used on each 64-byte block). -/
def bytesToWords : List Nat → List Nat
  | b0 :: b1 :: b2 :: b3 :: rest =>
      (((b0 * 256 + b1) * 256 + b2) * 256 + b3) :: bytesToWords rest
  | _ => []

/-- Message-schedule extension: prepend `n` more words to the reversed
word list (`rws` holds the most recent word first), then restore order. -/
def extendLoop : Nat → List Nat → List Nat
  | 0, rws => rws.reverse
  | n + 1, rws =>
      extendLoop n
        ((ssig1 (rws.getD 1 0) + rws.getD 6 0 + ssig0 (rws.getD 14 0) +
          rws.getD 15 0) % w32 :: rws)

/-- The 64-entry message schedule of a block given as 16 words. -/
def msgSchedule (block : List Nat) : List Nat := extendLoop 48 block.reverse

/-- One SHA-256 round. -/
def sha256Round (st : Sha256State) (kw : Nat × Nat) : Sha256State :=
  let t1 := (st.h + bsig1 st.e + chFn st.e st.f st.g + kw.1 + kw.2) % w32
  let t2 := (bsig0 st.a + majFn st.a st.b st.c) % w32
  ⟨(t1 + t2) % w32, st.a, st.b, st.c, (st.d + t1) % w32, st.e, st.f, st.g⟩

/-- Compress one 64-byte block into the running hash state. -/
def sha256Compress (st : Sha256State) (block : List Nat) : Sha256State :=
  let fin := (List.zip sha256K (msgSchedule (bytesToWords block))).foldl
    sha256Round st
  ⟨(st.a + fin.a) % w32, (st.b + fin.b) % w32, (st.c + fin.c) % w32,
   (st.d + fin.d) % w32, (st.e + fin.e) % w32, (st.f + fin.f) % w32,
   (st.g + fin.g) % w32, (st.h + fin.h) % w32⟩

/-- Split into 64-byte blocks (`fuel` bounds the recursion; callers pass the
list length, and padded messages are an exact multiple of 64 bytes). -/
def toBlocks : Nat → List Nat → List (List Nat)
  | 0, _ => []
  | _, [] => []
  | fuel + 1, bs => bs.take 64 :: toBlocks fuel (bs.drop 64)

/-- Big-endian bytes of a number, `n` bytes wide. -/
def natToBytesBE : Nat → Nat → List Nat
  | 0, _ => []
  | n + 1, v => natToBytesBE n (v / 256) ++ [v % 256]

/-- SHA-256 message padding: `0x80`, zeros to 56 mod 64, then the bit length
as an 8-byte big-endian number. -/
def sha256Pad (msg : List Nat) : List Nat :=
  msg ++ 128 :: List.replicate ((64 - (msg.length + 9) % 64) % 64) 0 ++
    natToBytesBE 8 (msg.length * 8)

/-- A 32-bit word as 4 big-endian bytes. -/
def wordBytes (v : Nat) : List Nat :=
  [v / 16777216 % 256, v / 65536 % 256, v / 256 % 256, v % 256]

/-- The 32-byte SHA-256 digest of a byte list (`hashlib.sha256(..).digest()`). -/
def sha256 (msg : List Nat) : List Nat :=
  let p := sha256Pad msg
  let fin := (toBlocks p.length p).foldl sha256Compress sha256H0
  wordBytes fin.a ++ wordBytes fin.b ++ wordBytes fin.c ++ wordBytes fin.d ++
  wordBytes fin.e ++ wordBytes fin.f ++ wordBytes fin.g ++ wordBytes fin.h

/-- `hmac.new(key, msg, hashlib.sha256).digest()`: RFC 2104 HMAC with a
64-byte block size; keys longer than a block are first hashed, shorter keys
are zero-padded to the block size. -/
def hmacSha256 (key msg : List Nat) : List Nat :=
  let k0 := if 64 < key.length then sha256 key else key
  let kpad := k0 ++ List.replicate (64 - k0.length) 0
  sha256 ((kpad.map fun b => b ^^^ 92) ++
    sha256 ((kpad.map fun b => b ^^^ 54) ++ msg))

/-! ## JSON values

`Json` models the values `json.loads` can produce and `json.dumps` can
serialize.  `List Json` cannot be used for the recursive positions (Lean
cannot do structural recursion through a nested inductive), so the element
and entry lists are their own mutual inductives.

A float parsed from a literal is kept as its decimal components
`(neg, ip, frac, ex)` (sign, integer part, fraction digits, decimal
exponent); the rounding of the literal to a binary64 value is not modelled,
and no theorem below depends on a payload containing a float, `NaN` or an
infinity — serialization theorems restrict payloads to `jsonWF` values,
which exclude them. -/

mutual
inductive Json where
  | null
  | bool (b : Bool)
  | int (n : Int)
  | float (neg : Bool) (ip : Nat) (frac : List Nat) (ex : Int)
  | nan
  | inf (neg : Bool)
  | str (s : String)
  | arr (elems : JsonList)
  | obj (entries : JsonObj)
inductive JsonList where
  | nil
  | cons (hd : Json) (tl : JsonList)
inductive JsonObj where
  | nil
  | cons (key : String) (val : Json) (tl : JsonObj)
end

mutual
def beqJson : Json → Json → Bool
  | .null, .null => true
  | .bool a, .bool b => a == b
  | .int a, .int b => a == b
  | .float n1 i1 f1 e1, .float n2 i2 f2 e2 =>
      n1 == n2 && i1 == i2 && f1 == f2 && e1 == e2
  | .nan, .nan => true
  | .inf a, .inf b => a == b
  | .str a, .str b => a == b
  | .arr a, .arr b => beqJsonList a b
  | .obj a, .obj b => beqJsonObj a b
  | _, _ => false
def beqJsonList : JsonList → JsonList → Bool
  | .nil, .nil => true
  | .cons x xs, .cons y ys => beqJson x y && beqJsonList xs ys
  | _, _ => false
def beqJsonObj : JsonObj → JsonObj → Bool
  | .nil, .nil => true
  | .cons k v tl, .cons k' v' tl' =>
      k == k' && beqJson v v' && beqJsonObj tl tl'
  | _, _ => false
end

mutual
theorem beqJson_iff : ∀ a b : Json, beqJson a b = true ↔ a = b
  | a, b => by
    cases a <;> cases b <;>
      simp only [beqJson, Json.bool.injEq, Json.int.injEq, Json.float.injEq,
        Json.inf.injEq, Json.str.injEq, Json.arr.injEq, Json.obj.injEq,
        Bool.and_eq_true, beq_iff_eq, and_assoc] <;>
      try simp
    case arr.arr a b => exact beqJsonList_iff a b
    case obj.obj a b => exact beqJsonObj_iff a b
theorem beqJsonList_iff : ∀ a b : JsonList, beqJsonList a b = true ↔ a = b
  | a, b => by
    cases a <;> cases b <;>
      simp only [beqJsonList, JsonList.cons.injEq, Bool.and_eq_true] <;> try simp
    case cons.cons x xs y ys =>
      exact and_congr (beqJson_iff x y) (beqJsonList_iff xs ys)
theorem beqJsonObj_iff : ∀ a b : JsonObj, beqJsonObj a b = true ↔ a = b
  | a, b => by
    cases a <;> cases b <;>
      simp only [beqJsonObj, JsonObj.cons.injEq, Bool.and_eq_true,
        beq_iff_eq, and_assoc] <;> try simp
    case cons.cons k v tl k' v' tl' =>
      intro _
      exact and_congr (beqJson_iff v v') (beqJsonObj_iff tl tl')
end

instance : DecidableEq Json := fun a b => decidable_of_iff _ (beqJson_iff a b)

instance : DecidableEq JsonList :=
  fun a b => decidable_of_iff _ (beqJsonList_iff a b)

instance : DecidableEq JsonObj :=
  fun a b => decidable_of_iff _ (beqJsonObj_iff a b)

/-- `k in d` for the entry list of an object. -/
def hasKey : JsonObj → String → Bool
  | .nil, _ => false
  | .cons k' _ tl, k => k' = k || hasKey tl k

/-- `d.get(k)`: the value stored under `k`, if any. -/
def objGet : JsonObj → String → Option Json
  | .nil, _ => none
  | .cons k' v tl, k => if k' = k then some v else objGet tl k

/-- `list(d.keys())`: the keys of an object, in entry order. -/
def objKeys : JsonObj → List String
  | .nil => []
  | .cons k _ tl => k :: objKeys tl

/-- `d[k] = v`: update in place if the key exists (keeping its position,
as a Python `dict` does), otherwise append. -/
def objUpdate : JsonObj → String → Json → JsonObj
  | .nil, k, v => .cons k v .nil
  | .cons k' v' tl, k, v =>
      if k' = k then .cons k' v tl else .cons k' v' (objUpdate tl k v)

/-- Build a `dict` by assigning the raw parsed entries left to right, as the
object parser of `json.loads` does (`d[key] = value` per member). -/
def objFromEntries : JsonObj → JsonObj → JsonObj
  | acc, .nil => acc
  | acc, .cons k v tl => objFromEntries (objUpdate acc k v) tl

mutual
/-- A payload value a Python `dict` obtained from (or fed to) this core can
denote: no floats, `NaN` or infinities, and object keys distinct at every
level (a `dict` cannot hold duplicate keys). -/
def jsonWF : Json → Bool
  | .null | .bool _ | .int _ | .str _ => true
  | .float _ _ _ _ | .nan | .inf _ => false
  | .arr xs => jsonWFList xs
  | .obj es => jsonWFObj es
def jsonWFList : JsonList → Bool
  | .nil => true
  | .cons x tl => jsonWF x && jsonWFList tl
def jsonWFObj : JsonObj → Bool
  | .nil => true
  | .cons k v tl => !hasKey tl k && jsonWF v && jsonWFObj tl
end

/-! ## JSON serialization (`json.dumps(payload, separators=(",", ":"),
ensure_ascii=False)`) -/

/-- Hexadecimal digit characters, lowercase (as `"\u%04x" % i` produces). -/
def hexChar (d : Nat) : Char := "0123456789abcdef".data.getD d '0'

/-- Decimal digit character. -/
def digitChar (d : Nat) : Char := "0123456789".data.getD d '0'

/-- Decimal digits of a natural number, most significant first (`fuel`
bounds the recursion; any `fuel > n` gives the exact digits). -/
def natDigitsAux : Nat → Nat → List Char
  | 0, _ => []
  | fuel + 1, n =>
      if n < 10 then [digitChar n]
      else natDigitsAux fuel (n / 10) ++ [digitChar (n % 10)]

/-- Decimal representation of a natural number, as `str(int)` prints it. -/
def natDigits (n : Nat) : List Char := natDigitsAux (n + 1) n

/-- `str(int)` for a (possibly negative) integer. -/
def intChars (n : Int) : List Char :=
  if n < 0 then '-' :: natDigits n.natAbs else natDigits n.natAbs

/-- How `json.dumps(.., ensure_ascii=False)` escapes one character of a
string: `"` and `\` get a backslash; control characters below `0x20` use
the short forms `\b`, `\t`, `\n`, `\f`, `\r` when available and `\u00xx`
(lowercase hex) otherwise; everything else is emitted as itself. -/
def escChar (c : Char) : List Char :=
  if c = '"' then ['\\', '"']
  else if c = '\\' then ['\\', '\\']
  else if c.toNat < 32 then
    if c.toNat = 8 then ['\\', 'b']
    else if c.toNat = 9 then ['\\', 't']
    else if c.toNat = 10 then ['\\', 'n']
    else if c.toNat = 12 then ['\\', 'f']
    else if c.toNat = 13 then ['\\', 'r']
    else ['\\', 'u', '0', '0', hexChar (c.toNat / 16), hexChar (c.toNat % 16)]
  else [c]

/-- A JSON string literal: quote, escaped characters, quote. -/
def escString (s : String) : List Char :=
  '"' :: s.data.flatMap escChar ++ ['"']

/-- The decimal literal of a stored float value (only used to make the
serializer total on `Json`; `json.dumps` prints `repr` of the binary64
value, which no theorem below exercises — `jsonWF` payloads have no
floats). -/
def floatChars (neg : Bool) (ip : Nat) (frac : List Nat) (ex : Int) :
    List Char :=
  (if neg then ['-'] else []) ++ natDigits ip ++
    '.' :: (if frac.isEmpty then ['0'] else frac.map digitChar) ++
    'e' :: intChars ex

mutual
/-- `json.dumps(v, separators=(",", ":"), ensure_ascii=False)`, as a
character list. -/
def dumpJson : Json → List Char
  | .null => "null".data
  | .bool true => "true".data
  | .bool false => "false".data
  | .int n => intChars n
  | .float neg ip frac ex => floatChars neg ip frac ex
  | .nan => "NaN".data
  | .inf false => "Infinity".data
  | .inf true => "-Infinity".data
  | .str s => escString s
  | .arr .nil => "[]".data
  | .arr (.cons x tl) => '[' :: (dumpJson x ++ dumpJsonArr tl) ++ [']']
  | .obj .nil => "{}".data
  | .obj (.cons k v tl) =>
      '{' :: (escString k ++ ':' :: dumpJson v ++ dumpJsonObj tl) ++ ['}']
/-- The remaining array items, each preceded by the `","` separator. -/
def dumpJsonArr : JsonList → List Char
  | .nil => []
  | .cons x tl => ',' :: dumpJson x ++ dumpJsonArr tl
/-- The remaining object members, each preceded by the `","` separator. -/
def dumpJsonObj : JsonObj → List Char
  | .nil => []
  | .cons k v tl => ',' :: (escString k ++ ':' :: dumpJson v) ++ dumpJsonObj tl
end

/-- `json.dumps(payload, separators=(",", ":"), ensure_ascii=False)`. -/
def jsonDumps (v : Json) : String := String.mk (dumpJson v)

/-! ## UTF-8 (`str.encode()` / `bytes.decode()`, strict) -/

/-- UTF-8 bytes of one character. -/
def utf8EncodeChar (c : Char) : List Nat :=
  if c.toNat < 128 then [c.toNat]
  else if c.toNat < 2048 then [192 + c.toNat / 64, 128 + c.toNat % 64]
  else if c.toNat < 65536 then
    [224 + c.toNat / 4096, 128 + c.toNat / 64 % 64, 128 + c.toNat % 64]
  else
    [240 + c.toNat / 262144, 128 + c.toNat / 4096 % 64, 128 + c.toNat / 64 % 64,
     128 + c.toNat % 64]

/-- `s.encode()`: UTF-8 bytes of a string. -/
def utf8Encode (s : String) : List Nat := s.data.flatMap utf8EncodeChar

/-- Strict UTF-8 decoding of one scalar value: rejects bare continuation
bytes, overlong forms, surrogates and code points above `0x10FFFF`, exactly
as `bytes.decode()` does. -/
def utf8DecodeChar : List Nat → Option (Char × List Nat)
  | [] => none
  | b0 :: rest =>
    if b0 < 128 then some (Char.ofNat b0, rest)
    else if b0 < 194 then none
    else if b0 < 224 then
      match rest with
      | b1 :: r =>
          if 128 ≤ b1 ∧ b1 < 192 then
            some (Char.ofNat ((b0 - 192) * 64 + (b1 - 128)), r)
          else none
      | [] => none
    else if b0 < 240 then
      match rest with
      | b1 :: b2 :: r =>
          if 128 ≤ b1 ∧ b1 < 192 ∧ 128 ≤ b2 ∧ b2 < 192 then
            if 2048 ≤ (b0 - 224) * 4096 + (b1 - 128) * 64 + (b2 - 128) ∧
                ¬(55296 ≤ (b0 - 224) * 4096 + (b1 - 128) * 64 + (b2 - 128) ∧
                  (b0 - 224) * 4096 + (b1 - 128) * 64 + (b2 - 128) < 57344) then
              some (Char.ofNat ((b0 - 224) * 4096 + (b1 - 128) * 64 + (b2 - 128)), r)
            else none
          else none
      | _ => none
    else if b0 < 245 then
      match rest with
      | b1 :: b2 :: b3 :: r =>
          if 128 ≤ b1 ∧ b1 < 192 ∧ 128 ≤ b2 ∧ b2 < 192 ∧ 128 ≤ b3 ∧ b3 < 192
          then
            if 65536 ≤ (b0 - 240) * 262144 + (b1 - 128) * 4096 +
                (b2 - 128) * 64 + (b3 - 128) ∧
                (b0 - 240) * 262144 + (b1 - 128) * 4096 +
                  (b2 - 128) * 64 + (b3 - 128) < 1114112 then
              some (Char.ofNat ((b0 - 240) * 262144 + (b1 - 128) * 4096 +
                (b2 - 128) * 64 + (b3 - 128)), r)
            else none
          else none
      | _ => none
    else none

/-- Strict UTF-8 decoding of a byte list (`fuel` bounds the recursion; each
step consumes at least one byte, so the byte count is always enough). -/
def utf8DecodeAux : Nat → List Nat → Option (List Char)
  | _, [] => some []
  | 0, _ :: _ => none
  | fuel + 1, bs =>
    match utf8DecodeChar bs with
    | none => none
    | some (c, r) => (utf8DecodeAux fuel r).map (c :: ·)

/-- `body.decode()`: strict UTF-8 decoding; `none` models
`UnicodeDecodeError`. -/
def utf8Decode (bs : List Nat) : Option (List Char) := utf8DecodeAux bs.length bs

/-! ## JSON parsing (`json.loads`)

The parser below follows CPython's `json` scanner: the same value grammar,
whitespace set, strict string handling (unescaped control characters are
rejected, `\uXXXX` escapes combine surrogate pairs), greedy number regex
`(-?(?:0|[1-9]\d*))(\.\d+)?([eE][-+]?\d+)?`, and the constants `NaN`,
`Infinity` and `-Infinity`.  Two deliberate model boundaries, neither
reachable from any theorem below: a *lone* surrogate produced by a `\uXXXX`
escape (which Python keeps in the `str`) becomes `U+FFFD`, since a Lean
`Char` cannot hold a surrogate; and CPython's recursion limit on deeply
nested documents is not modelled (the `fuel` argument is always
sufficient for the input length, see `parseVal`). -/

/-- The JSON whitespace characters (`' '`, `'\t'`, `'\n'`, `'\r'`). -/
def isJsonWs (c : Char) : Bool := c = ' ' || c = '\t' || c = '\n' || c = '\r'

/-- Skip JSON whitespace. -/
def skipWs (cs : List Char) : List Char := cs.dropWhile isJsonWs

/-- ASCII decimal digit test. -/
def isDigitCh (c : Char) : Bool := '0' ≤ c && c ≤ '9'

/-- Value of an ASCII decimal digit. -/
def digitVal (c : Char) : Nat := c.toNat - 48

/-- Take a maximal run of decimal digits (as digit values). -/
def takeDigits : List Char → List Nat × List Char
  | [] => ([], [])
  | c :: rest =>
      if isDigitCh c then
        let (ds, r) := takeDigits rest
        (digitVal c :: ds, r)
      else ([], c :: rest)

/-- The number a digit run denotes. -/
def digitsToNat (ds : List Nat) : Nat := ds.foldl (fun a d => a * 10 + d) 0

/-- Value of a hexadecimal digit (either case), `none` otherwise. -/
def hexVal (c : Char) : Option Nat :=
  if '0' ≤ c ∧ c ≤ '9' then some (c.toNat - 48)
  else if 'a' ≤ c ∧ c ≤ 'f' then some (c.toNat - 87)
  else if 'A' ≤ c ∧ c ≤ 'F' then some (c.toNat - 55)
  else none

/-- Four hex digits, as in a `\uXXXX` escape. -/
def hex4 : List Char → Option (Nat × List Char)
  | c1 :: c2 :: c3 :: c4 :: r =>
      match hexVal c1, hexVal c2, hexVal c3, hexVal c4 with
      | some a, some b, some c, some d => some (((a * 16 + b) * 16 + c) * 16 + d, r)
      | _, _, _, _ => none
  | _ => none

/-- The short backslash escapes of JSON strings. -/
def escTable (c : Char) : Option Char :=
  if c = '"' then some '"'
  else if c = '\\' then some '\\'
  else if c = '/' then some '/'
  else if c = 'b' then some '\x08'
  else if c = 'f' then some '\x0c'
  else if c = 'n' then some '\n'
  else if c = 'r' then some '\r'
  else if c = 't' then some '\t'
  else none

/-- The body of a JSON string literal, after the opening quote, in strict
mode: ends at `"`; backslash escapes per `escTable` and `\uXXXX` (a high
surrogate followed by an escaped low surrogate combines; an unpaired
surrogate becomes `U+FFFD`, see the section comment); an unescaped control
character below `0x20` is an error. -/
def parseStrAux : Nat → List Char → List Char → Option (String × List Char)
  | 0, _, _ => none
  | _ + 1, [], _ => none
  | fuel + 1, c :: rest, acc =>
    if c = '"' then some (String.mk acc.reverse, rest)
    else if c = '\\' then
      match rest with
      | [] => none
      | e :: r2 =>
        if e = 'u' then
          match hex4 r2 with
          | none => none
          | some (n, r3) =>
            if 55296 ≤ n ∧ n < 56320 then
              match r3 with
              | '\\' :: 'u' :: r4 =>
                match hex4 r4 with
                | none => none
                | some (n2, r5) =>
                  if 56320 ≤ n2 ∧ n2 < 57344 then
                    parseStrAux fuel r5
                      (Char.ofNat (65536 + (n - 55296) * 1024 + (n2 - 56320)) :: acc)
                  else parseStrAux fuel r3 ('�' :: acc)
              | _ => parseStrAux fuel r3 ('�' :: acc)
            else if 56320 ≤ n ∧ n < 57344 then parseStrAux fuel r3 ('�' :: acc)
            else parseStrAux fuel r3 (Char.ofNat n :: acc)
        else
          match escTable e with
          | some c' => parseStrAux fuel r2 (c' :: acc)
          | none => none
    else if c.toNat < 32 then none
    else parseStrAux fuel rest (c :: acc)

/-- The optional fraction group `(\.\d+)?`: digits after a `'.'`, or no
match (consuming nothing) when absent. -/
def parseFrac : List Char → Option (List Nat) × List Char
  | [] => (none, [])
  | c :: r =>
    if c = '.' then
      match takeDigits r with
      | ([], _) => (none, c :: r)
      | (ds, r') => (some ds, r')
    else (none, c :: r)

/-- The optional exponent group `([eE][-+]?\d+)?`: a signed digit run after
`e`/`E`, or no match (consuming nothing) when absent. -/
def parseExp : List Char → Option Int × List Char
  | [] => (none, [])
  | e :: rr =>
    if e = 'e' ∨ e = 'E' then
      let sg : Bool × List Char :=
        match rr with
        | [] => (false, rr)
        | c :: t => if c = '+' then (false, t)
                    else if c = '-' then (true, t) else (false, rr)
      match takeDigits sg.2 with
      | ([], _) => (none, e :: rr)
      | (ds, r') =>
          (some (if sg.1 then -(digitsToNat ds : Int)
                 else (digitsToNat ds : Int)), r')
    else (none, e :: rr)

/-- The part of the number match after the optional leading `-` (`neg`
records whether it was present). -/
def parseNumBody (neg : Bool) : List Char → Option (Json × List Char)
  | [] => none
  | c :: rest0 =>
    if isDigitCh c then
      let ipr : List Nat × List Char :=
        if c = '0' then ([0], rest0) else takeDigits (c :: rest0)
      let fr := parseFrac ipr.2
      let ex := parseExp fr.2
      match fr.1, ex.1 with
      | none, none =>
          some (.int (if neg then -(digitsToNat ipr.1 : Int)
                      else (digitsToNat ipr.1 : Int)), ipr.2)
      | f, e =>
          some (.float neg (digitsToNat ipr.1) (f.getD []) (e.getD 0), ex.2)
    else none

/-- The JSON number regex `(-?(?:0|[1-9]\d*))(\.\d+)?([eE][-+]?\d+)?`,
matched greedily at the head of the input: an integer-only match yields
`Json.int` (Python's `int(..)`), a match with a fraction or exponent yields
`Json.float` with the literal's decimal components.  Returns `none` when
the regex does not match at the head. -/
def parseNumber : List Char → Option (Json × List Char)
  | [] => none
  | c :: r => if c = '-' then parseNumBody true r else parseNumBody false (c :: r)

mutual
/-- A JSON value, as CPython's scanner recognizes one.  `fuel` bounds the
mutual recursion; every recursive call strictly consumes input, with at
least one input character consumed per two fuel steps, so the
`2·|input| + 2` supplied by `jsonLoads` never runs out on accepted input. -/
def parseVal : Nat → List Char → Option (Json × List Char)
  | 0, _ => none
  | _ + 1, [] => none
  | fuel + 1, c :: rest =>
    if c = '"' then
      (parseStrAux rest.length rest []).map (fun p => (.str p.1, p.2))
    else if c = '{' then
      match skipWs rest with
      | [] =>
        match parseObjTail fuel [] with
        | some (raw, r2) => some (.obj (objFromEntries .nil raw), r2)
        | none => none
      | c2 :: r2 =>
        if c2 = '}' then some (.obj .nil, r2)
        else
          match parseObjTail fuel (c2 :: r2) with
          | some (raw, r3) => some (.obj (objFromEntries .nil raw), r3)
          | none => none
    else if c = '[' then
      match skipWs rest with
      | [] =>
        match parseArrTail fuel [] with
        | some (xs, r2) => some (.arr xs, r2)
        | none => none
      | c2 :: r2 =>
        if c2 = ']' then some (.arr .nil, r2)
        else
          match parseArrTail fuel (c2 :: r2) with
          | some (xs, r3) => some (.arr xs, r3)
          | none => none
    else if c = 'n' then
      if rest.take 3 = ['u', 'l', 'l'] then some (.null, rest.drop 3) else none
    else if c = 't' then
      if rest.take 3 = ['r', 'u', 'e'] then some (.bool true, rest.drop 3)
      else none
    else if c = 'f' then
      if rest.take 4 = ['a', 'l', 's', 'e'] then some (.bool false, rest.drop 4)
      else none
    else
      match parseNumber (c :: rest) with
      | some r => some r
      | none =>
        if c = 'N' then
          if rest.take 2 = ['a', 'N'] then some (.nan, rest.drop 2) else none
        else if c = 'I' then
          if rest.take 7 = ['n', 'f', 'i', 'n', 'i', 't', 'y'] then
            some (.inf false, rest.drop 7)
          else none
        else if c = '-' then
          if rest.take 8 = ['I', 'n', 'f', 'i', 'n', 'i', 't', 'y'] then
            some (.inf true, rest.drop 8)
          else none
        else none
/-- The elements of a non-empty array, from the first element up to the
closing `]`. -/
def parseArrTail : Nat → List Char → Option (JsonList × List Char)
  | 0, _ => none
  | fuel + 1, cs =>
    match parseVal fuel cs with
    | none => none
    | some (v, r) =>
      match skipWs r with
      | ',' :: r2 =>
        match parseArrTail fuel (skipWs r2) with
        | some (tl, r3) => some (.cons v tl, r3)
        | none => none
      | ']' :: r2 => some (.cons v .nil, r2)
      | _ => none
/-- The members of a non-empty object, from the first key up to the closing
`}`, in source order with duplicates kept (the caller folds them into a
dict with `objFromEntries`). -/
def parseObjTail : Nat → List Char → Option (JsonObj × List Char)
  | 0, _ => none
  | fuel + 1, cs =>
    match cs with
    | '"' :: rest =>
      match parseStrAux rest.length rest [] with
      | none => none
      | some (k, r1) =>
        match skipWs r1 with
        | ':' :: r2 =>
          match parseVal fuel (skipWs r2) with
          | none => none
          | some (v, r3) =>
            match skipWs r3 with
            | ',' :: r4 =>
              match parseObjTail fuel (skipWs r4) with
              | some (tl, r5) => some (.cons k v tl, r5)
              | none => none
            | '}' :: r4 => some (.cons k v .nil, r4)
            | _ => none
        | _ => none
    | _ => none
end

/-- Does the text start with a byte-order mark (which `json.loads`
rejects)? -/
def startsWithBom : List Char → Bool
  | [] => false
  | c :: _ => c = '﻿'

/-- `json.loads(s)`: leading and trailing JSON whitespace allowed, exactly
one value, and a leading BOM rejected. -/
def jsonLoads (s : String) : Option Json :=
  if startsWithBom s.data then none
  else
    let cs1 := skipWs s.data
    match parseVal (cs1.length + cs1.length + 2) cs1 with
    | some (v, rest) => if (skipWs rest).isEmpty then some v else none
    | none => none

/-! ## Python truthiness and `int(..)` coercion -/

/-- Python truthiness of a JSON-decoded value (`bool(x)`).  The float case
reads the decimal literal: zero mantissa means `0.0`.  (A tiny literal such
as `1e-400` underflows to `0.0` in binary64 and would be falsy in Python;
floats are outside every theorem's domain, see the `Json` comment.) -/
def pyTruthy : Json → Bool
  | .null => false
  | .bool b => b
  | .int n => n != 0
  | .float _ ip frac _ => !(ip == 0 && frac.all (· == 0))
  | .nan => true
  | .inf _ => true
  | .str s => !s.isEmpty
  | .arr .nil => false
  | .arr (.cons _ _) => true
  | .obj .nil => false
  | .obj (.cons _ _ _) => true

/-- The whitespace `int(str)` strips (ASCII part). -/
def isPyIntWs (c : Char) : Bool :=
  c.toNat = 32 || (9 ≤ c.toNat && c.toNat ≤ 13)

/-- The digit part of the `int(str)` grammar: `digit (('_')? digit)*`,
consumed to the end.  `pyIntGo` continues after at least one digit. -/
def pyIntGo : Nat → List Char → Option Nat
  | acc, [] => some acc
  | acc, '_' :: c :: rest =>
      if isDigitCh c then pyIntGo (acc * 10 + digitVal c) rest else none
  | _, ['_'] => none
  | acc, c :: rest =>
      if isDigitCh c then pyIntGo (acc * 10 + digitVal c) rest else none

/-- All-digit (with optional single underscores) parse of the body. -/
def pyIntDigits : List Char → Option Nat
  | [] => none
  | c :: rest => if isDigitCh c then pyIntGo (digitVal c) rest else none

/-- `int(s)` for a string: strip whitespace, optional sign, digit body.
Python additionally accepts non-ASCII decimal digits and whitespace; the
theorems that rely on this model restrict the string to ASCII. -/
def pyIntOfString (s : String) : Option Int :=
  let t := ((s.data.dropWhile isPyIntWs).reverse.dropWhile isPyIntWs).reverse
  match t with
  | '+' :: r => (pyIntDigits r).map Int.ofNat
  | '-' :: r => (pyIntDigits r).map (fun n => -(n : Int))
  | r => (pyIntDigits r).map Int.ofNat

/-- `int(payload["exp"])`: identity on ints, `0`/`1` on bools, string
parsing per `pyIntOfString`, truncation toward zero on floats (computed
from the decimal literal components; see the `Json` comment), and an
error — `TypeError`, `ValueError` or `OverflowError`, all caught by the
verifier — on everything else. -/
def pyInt : Json → Option Int
  | .int n => some n
  | .bool b => some (if b then 1 else 0)
  | .float neg ip frac ex =>
      let mant := ip * 10 ^ frac.length + digitsToNat frac
      let scale : Int := ex - frac.length
      let mag : Nat :=
        if 0 ≤ scale then mant * 10 ^ scale.toNat else mant / 10 ^ (-scale).toNat
      some (if neg then -(mag : Int) else (mag : Int))
  | .nan => none
  | .inf _ => none
  | .str s => pyIntOfString s
  | .null => none
  | .arr _ => none
  | .obj _ => none

/-! ## Sign and verify -/

/-- `license_token.split(".", 1)` unpacked into two variables: everything
before the first `.` and everything after it; `none` (an unpacking
`ValueError`) when there is no `.` at all. -/
def splitToken (s : String) : Option (String × String) :=
  match s.data.span (· ≠ '.') with
  | (_, []) => none
  | (a, _ :: b) => some (String.mk a, String.mk b)

/-- `sign_license(payload, secret)` from `licensing.py`: serialize the
payload, MAC it, and join the two encoded segments with `"."`. -/
def sign_license (payload : Json) (secret : String) : String :=
  let body := utf8Encode (jsonDumps payload)
  _b64url body ++ "." ++ _b64url (hmacSha256 (utf8Encode secret) body)

/-- `verify_license(license_token, secret)` from `licensing.py`, with the
ambient `time.time()` passed explicitly as `now` (seconds since epoch).
Any exception inside the `try` collapses to `(False, None, "malformed")`;
`hmac.compare_digest` is byte-list equality; `payload.get("exp")` requires
the decoded payload to be a `dict` (anything else raises
`AttributeError`, hence "malformed"). -/
def verify_license (license_token : String) (secret : String) (now : Int) :
    Bool × Option Json × String :=
  match splitToken license_token with
  | none => (false, none, "malformed")
  | some (body_b64, sig_b64) =>
    match _unb64url body_b64 with
    | none => (false, none, "malformed")
    | some body =>
      let expected := hmacSha256 (utf8Encode secret) body
      match _unb64url sig_b64 with
      | none => (false, none, "malformed")
      | some sig =>
        if expected = sig then
          match utf8Decode body with
          | none => (false, none, "malformed")
          | some chars =>
            match jsonLoads (String.mk chars) with
            | none => (false, none, "malformed")
            | some payload =>
              match payload with
              | .obj entries =>
                match objGet entries "exp" with
                | none => (true, some payload, "ok")
                | some e =>
                  if pyTruthy e then
                    match pyInt e with
                    | none => (false, none, "malformed")
                    | some exp =>
                        if now > exp then (false, some payload, "expired")
                        else (true, some payload, "ok")
                  else (true, some payload, "ok")
              | _ => (false, none, "malformed")
        else (false, none, "invalid-signature")

/-! ## Entitlement resolver -/

/-- The entitlement limits record returned by `plan_limits`. -/
structure Limits where
  max_runs_per_day : Nat
  max_ideas : Nat
  allow_export : Bool
deriving DecidableEq

/-- `plan_limits(plan)` from `licensing.py`. -/
def plan_limits (plan : String) : Limits :=
  if plan = "agency" then ⟨200, 15, true⟩
  else if plan = "pro" then ⟨20, 12, true⟩
  else ⟨2, 5, false⟩

/-! ## Facts about the base64 alphabet -/

theorem b64val_translate_alph : ∀ v, v < 64 → b64val (b64translate (alph v)) = some v := by
  decide

theorem alph_ne_eq : ∀ v, v < 64 → alph v ≠ '=' := by decide

theorem alph_ne_dot : ∀ v, v < 64 → alph v ≠ '.' := by decide

theorem alph_ascii : ∀ v, v < 64 → (alph v).toNat < 128 := by decide

/-- Every character the encoder emits is `alph v` for some `v < 64`. -/
theorem b64urlChars_mem : ∀ (bs : List Nat), (∀ x ∈ bs, x < 256) →
    ∀ c ∈ b64urlChars bs, ∃ v, v < 64 ∧ c = alph v
  | [], _, c, hc => by simp [b64urlChars] at hc
  | [a], h, c, hc => by
    have ha : a < 256 := h a (by simp)
    simp only [b64urlChars, List.mem_cons, List.not_mem_nil, or_false] at hc
    rcases hc with rfl | rfl
    · exact ⟨a / 4, by omega, rfl⟩
    · exact ⟨a % 4 * 16, by omega, rfl⟩
  | [a, b], h, c, hc => by
    have ha : a < 256 := h a (by simp)
    have hb : b < 256 := h b (by simp)
    simp only [b64urlChars, List.mem_cons, List.not_mem_nil, or_false] at hc
    rcases hc with rfl | rfl | rfl
    · exact ⟨a / 4, by omega, rfl⟩
    · exact ⟨a % 4 * 16 + b / 16, by omega, rfl⟩
    · exact ⟨b % 16 * 4, by omega, rfl⟩
  | a :: b :: c' :: rest, h, c, hc => by
    have ha : a < 256 := h a (by simp)
    have hb : b < 256 := h b (by simp)
    have hc' : c' < 256 := h c' (by simp)
    simp only [b64urlChars, List.mem_cons] at hc
    rcases hc with rfl | rfl | rfl | rfl | hmem
    · exact ⟨a / 4, by omega, rfl⟩
    · exact ⟨a % 4 * 16 + b / 16, by omega, rfl⟩
    · exact ⟨b % 16 * 4 + c' / 64, by omega, rfl⟩
    · exact ⟨c' % 64, by omega, rfl⟩
    · exact b64urlChars_mem rest (fun x hx => h x (by simp [hx])) c hmem

theorem b64urlChars_len_cons3 (a b c : Nat) (rest : List Nat) :
    (b64urlChars (a :: b :: c :: rest)).length = 4 + (b64urlChars rest).length := by
  simp [b64urlChars]; omega

/-- Stepping `a2b` over one data character (not `=`, in the alphabet). -/
theorem a2b_step (c : Char) (rest : List Char) (qp lc pads : Nat)
    (out : List Nat) (v : Nat) (hne : c ≠ '=') (hv : b64val c = some v) :
    a2b (c :: rest) qp lc pads out =
      match qp with
      | 0 => a2b rest 1 v 0 out
      | 1 => a2b rest 2 (v % 16) 0 (out ++ [lc * 4 + v / 16])
      | 2 => a2b rest 3 (v % 4) 0 (out ++ [lc * 16 + v / 4])
      | _ => a2b rest 0 0 0 (out ++ [lc * 64 + v]) := by
  simp [a2b, hne, hv]

/-- Decoding a full data quad emits three bytes and restarts the quad. -/
theorem a2b_quad (v1 v2 v3 v4 : Nat) (h1 : v1 < 64) (h2 : v2 < 64)
    (h3 : v3 < 64) (h4 : v4 < 64) (rest : List Char) (out : List Nat) :
    a2b (b64translate (alph v1) :: b64translate (alph v2) ::
         b64translate (alph v3) :: b64translate (alph v4) :: rest) 0 0 0 out =
      a2b rest 0 0 0
        (out ++ [v1 * 4 + v2 / 16, v2 % 16 * 16 + v3 / 4, v3 % 4 * 64 + v4]) := by
  have t1 := b64val_translate_alph v1 h1
  have t2 := b64val_translate_alph v2 h2
  have t3 := b64val_translate_alph v3 h3
  have t4 := b64val_translate_alph v4 h4
  have n1 : b64translate (alph v1) ≠ '=' := by
    intro hEq; rw [hEq] at t1; simp [b64val] at t1
  have n2 : b64translate (alph v2) ≠ '=' := by
    intro hEq; rw [hEq] at t2; simp [b64val] at t2
  have n3 : b64translate (alph v3) ≠ '=' := by
    intro hEq; rw [hEq] at t3; simp [b64val] at t3
  have n4 : b64translate (alph v4) ≠ '=' := by
    intro hEq; rw [hEq] at t4; simp [b64val] at t4
  rw [a2b_step _ _ 0 _ _ _ _ n1 t1, a2b_step _ _ 1 _ _ _ _ n2 t2,
    a2b_step _ _ 2 _ _ _ _ n3 t3, a2b_step _ _ 3 _ _ _ _ n4 t4]
  simp [List.append_assoc]

/-- Decoding the tail `c1 c2 ==` of a one-byte final group. -/
theorem a2b_tail2 (v1 v2 : Nat) (h1 : v1 < 64) (h2 : v2 < 64) (out : List Nat) :
    a2b (b64translate (alph v1) :: b64translate (alph v2) :: ['=', '=']) 0 0 0 out =
      some (out ++ [v1 * 4 + v2 / 16]) := by
  have t1 := b64val_translate_alph v1 h1
  have t2 := b64val_translate_alph v2 h2
  have n1 : b64translate (alph v1) ≠ '=' := by
    intro hEq; rw [hEq] at t1; simp [b64val] at t1
  have n2 : b64translate (alph v2) ≠ '=' := by
    intro hEq; rw [hEq] at t2; simp [b64val] at t2
  rw [a2b_step _ _ 0 _ _ _ _ n1 t1, a2b_step _ _ 1 _ _ _ _ n2 t2]
  simp [a2b]

/-- Decoding the tail `c1 c2 c3 =` of a two-byte final group. -/
theorem a2b_tail3 (v1 v2 v3 : Nat) (h1 : v1 < 64) (h2 : v2 < 64)
    (h3 : v3 < 64) (out : List Nat) :
    a2b (b64translate (alph v1) :: b64translate (alph v2) ::
         b64translate (alph v3) :: ['=']) 0 0 0 out =
      some (out ++ [v1 * 4 + v2 / 16, v2 % 16 * 16 + v3 / 4]) := by
  have t1 := b64val_translate_alph v1 h1
  have t2 := b64val_translate_alph v2 h2
  have t3 := b64val_translate_alph v3 h3
  have n1 : b64translate (alph v1) ≠ '=' := by
    intro hEq; rw [hEq] at t1; simp [b64val] at t1
  have n2 : b64translate (alph v2) ≠ '=' := by
    intro hEq; rw [hEq] at t2; simp [b64val] at t2
  have n3 : b64translate (alph v3) ≠ '=' := by
    intro hEq; rw [hEq] at t3; simp [b64val] at t3
  rw [a2b_step _ _ 0 _ _ _ _ n1 t1, a2b_step _ _ 1 _ _ _ _ n2 t2,
    a2b_step _ _ 2 _ _ _ _ n3 t3]
  simp [a2b, List.append_assoc]

/-- Core of the round-trip: decoding the padded encoder output appends the
original bytes to the output accumulator. -/
theorem a2b_enc : ∀ (bs : List Nat), (∀ x ∈ bs, x < 256) → ∀ out : List Nat,
    a2b ((b64urlChars bs ++
        List.replicate ((4 - (b64urlChars bs).length % 4) % 4) '=').map
      b64translate) 0 0 0 out = some (out ++ bs)
  | [], _, out => by simp [b64urlChars, a2b]
  | [a], h, out => by
    have ha : a < 256 := h a (by simp)
    have e1 : (b64urlChars [a]).length = 2 := by simp [b64urlChars]
    rw [e1]
    show a2b (List.map b64translate
      (b64urlChars [a] ++ ['=', '='])) 0 0 0 out = _
    simp only [b64urlChars, List.cons_append, List.nil_append, List.map_cons,
      List.map_nil]
    have : b64translate '=' = '=' := by decide
    rw [this]
    have := a2b_tail2 (a / 4) (a % 4 * 16) (by omega) (by omega) out
    rw [this]
    have : a / 4 * 4 + a % 4 * 16 / 16 = a := by omega
    rw [this]
  | [a, b], h, out => by
    have ha : a < 256 := h a (by simp)
    have hb : b < 256 := h b (by simp)
    have e1 : (b64urlChars [a, b]).length = 3 := by simp [b64urlChars]
    rw [e1]
    show a2b (List.map b64translate (b64urlChars [a, b] ++ ['='])) 0 0 0 out = _
    simp only [b64urlChars, List.cons_append, List.nil_append, List.map_cons,
      List.map_nil]
    have : b64translate '=' = '=' := by decide
    rw [this]
    have := a2b_tail3 (a / 4) (a % 4 * 16 + b / 16) (b % 16 * 4)
      (by omega) (by omega) (by omega) out
    rw [this]
    have e2 : a / 4 * 4 + (a % 4 * 16 + b / 16) / 16 = a := by omega
    have e3 : (a % 4 * 16 + b / 16) % 16 * 16 + b % 16 * 4 / 4 = b := by omega
    rw [e2, e3]
  | a :: b :: c :: rest, h, out => by
    have ha : a < 256 := h a (by simp)
    have hb : b < 256 := h b (by simp)
    have hc : c < 256 := h c (by simp)
    have hr : ∀ x ∈ rest, x < 256 := fun x hx => h x (by simp [hx])
    rw [b64urlChars_len_cons3]
    have e0 : (4 - (4 + (b64urlChars rest).length) % 4) % 4 =
        (4 - (b64urlChars rest).length % 4) % 4 := by omega
    rw [e0]
    show a2b (List.map b64translate (b64urlChars (a :: b :: c :: rest) ++ _))
      0 0 0 out = _
    simp only [b64urlChars, List.cons_append, List.map_cons]
    rw [a2b_quad (a / 4) (a % 4 * 16 + b / 16) (b % 16 * 4 + c / 64) (c % 64)
      (by omega) (by omega) (by omega) (by omega)]
    have e2 : a / 4 * 4 + (a % 4 * 16 + b / 16) / 16 = a := by omega
    have e3 : (a % 4 * 16 + b / 16) % 16 * 16 + (b % 16 * 4 + c / 64) / 4 = b := by
      omega
    have e4 : (b % 16 * 4 + c / 64) % 4 * 64 + c % 64 = c := by omega
    rw [e2, e3, e4]
    have IH := a2b_enc rest hr (out ++ [a, b, c])
    rw [IH]
    simp

/-- **Base64 round-trip**: decoding the padless URL-safe encoding of any
byte list recovers exactly those bytes. -/
theorem unb64url_b64url (bs : List Nat) (h : ∀ x ∈ bs, x < 256) :
    _unb64url (_b64url bs) = some bs := by
  have hall : (String.mk (b64urlChars bs)).data.all (fun c => c.toNat < 128) = true := by
    rw [List.all_eq_true]
    intro c hcmem
    obtain ⟨v, hv, rfl⟩ := b64urlChars_mem bs h c hcmem
    simpa using alph_ascii v hv
  unfold _unb64url _b64url
  rw [hall]
  simp only [if_true]
  have hlen : (String.mk (b64urlChars bs)).length = (b64urlChars bs).length := rfl
  rw [hlen]
  exact a2b_enc bs h []

/-! ## Digest shape facts -/

theorem sha256_length (msg : List Nat) : (sha256 msg).length = 32 := by
  simp [sha256, wordBytes]

theorem sha256_bytes_lt (msg : List Nat) : ∀ x ∈ sha256 msg, x < 256 := by
  intro x hx
  simp only [sha256, wordBytes, List.mem_append, List.mem_cons,
    List.not_mem_nil, or_false] at hx
  rcases hx with h | h | h | h | h | h | h | h <;> omega

theorem hmacSha256_length (key msg : List Nat) :
    (hmacSha256 key msg).length = 32 := by
  rw [hmacSha256]
  exact sha256_length _

theorem hmacSha256_bytes_lt (key msg : List Nat) :
    ∀ x ∈ hmacSha256 key msg, x < 256 := by
  rw [hmacSha256]
  exact sha256_bytes_lt _

theorem hmacSha256_ne_nil (key msg : List Nat) : hmacSha256 key msg ≠ [] := by
  intro h
  have := hmacSha256_length key msg
  rw [h] at this
  simp at this

/-! ## UTF-8 round-trip -/

theorem char_toNat_valid (c : Char) :
    c.toNat < 55296 ∨ (57344 ≤ c.toNat ∧ c.toNat < 1114112) := by
  rcases c.valid with h | ⟨h1, h2⟩
  · left
    exact h
  · right
    exact ⟨h1, h2⟩

theorem utf8DecodeChar_enc (c : Char) (rest : List Nat) :
    utf8DecodeChar (utf8EncodeChar c ++ rest) = some (c, rest) := by
  have hval := char_toNat_valid c
  have hofn := Char.ofNat_toNat c
  by_cases h1 : c.toNat < 128
  · simp only [utf8EncodeChar, if_pos h1, List.cons_append, List.nil_append,
      utf8DecodeChar]
    rw [hofn]
  · by_cases h2 : c.toNat < 2048
    · simp only [utf8EncodeChar, if_neg h1, if_pos h2, List.cons_append,
        List.nil_append, utf8DecodeChar]
      rw [if_neg (by omega), if_neg (by omega), if_pos (by omega),
        if_pos (by constructor <;> omega)]
      have e : (192 + c.toNat / 64 - 192) * 64 + (128 + c.toNat % 64 - 128) =
          c.toNat := by omega
      rw [e, hofn]
    · by_cases h3 : c.toNat < 65536
      · simp only [utf8EncodeChar, if_neg h1, if_neg h2, if_pos h3,
          List.cons_append, List.nil_append, utf8DecodeChar]
        rw [if_neg (by omega), if_neg (by omega), if_neg (by omega),
          if_pos (by omega),
          if_pos (by refine ⟨by omega, by omega, by omega, by omega⟩)]
        have e : (224 + c.toNat / 4096 - 224) * 4096 +
            (128 + c.toNat / 64 % 64 - 128) * 64 + (128 + c.toNat % 64 - 128) =
            c.toNat := by omega
        rw [if_pos (by rw [e]; omega), e, hofn]
      · simp only [utf8EncodeChar, if_neg h1, if_neg h2, if_neg h3,
          List.cons_append, List.nil_append, utf8DecodeChar]
        rw [if_neg (by omega), if_neg (by omega), if_neg (by omega),
          if_neg (by omega), if_pos (by omega),
          if_pos (by
            refine ⟨by omega, by omega, by omega, by omega, by omega, by omega⟩)]
        have e : (240 + c.toNat / 262144 - 240) * 262144 +
            (128 + c.toNat / 4096 % 64 - 128) * 4096 +
            (128 + c.toNat / 64 % 64 - 128) * 64 + (128 + c.toNat % 64 - 128) =
            c.toNat := by omega
        rw [if_pos (by rw [e]; omega), e, hofn]

theorem utf8EncodeChar_ne_nil (c : Char) : utf8EncodeChar c ≠ [] := by
  simp only [utf8EncodeChar]
  split_ifs <;> simp

theorem utf8DecodeAux_cons (fuel : Nat) (bs : List Nat) (c : Char)
    (r : List Nat) (hb : bs ≠ []) (hc : utf8DecodeChar bs = some (c, r)) :
    utf8DecodeAux (fuel + 1) bs = (utf8DecodeAux fuel r).map (c :: ·) := by
  cases bs with
  | nil => exact absurd rfl hb
  | cons b bs' =>
    rw [utf8DecodeAux, hc]
    all_goals simp

/-- Decoding an encoded character list with enough fuel yields the
characters back (fuel one per character suffices since every character
consumes at least one byte). -/
theorem utf8DecodeAux_enc : ∀ (l : List Char) (fuel : Nat), l.length ≤ fuel →
    utf8DecodeAux fuel (l.flatMap utf8EncodeChar) = some l
  | [], fuel, _ => by
    cases fuel <;> simp [utf8DecodeAux]
  | c :: tl, fuel + 1, h => by
    have hne : (c :: tl).flatMap utf8EncodeChar ≠ [] := by
      simp only [List.flatMap_cons]
      intro hx
      rcases List.append_eq_nil.mp hx with ⟨hx1, _⟩
      exact utf8EncodeChar_ne_nil c hx1
    have hchar : utf8DecodeChar ((c :: tl).flatMap utf8EncodeChar) =
        some (c, tl.flatMap utf8EncodeChar) := by
      rw [List.flatMap_cons]
      exact utf8DecodeChar_enc c _
    rw [utf8DecodeAux_cons fuel _ c _ hne hchar,
      utf8DecodeAux_enc tl fuel (by simpa using h)]
    rfl

theorem utf8Decode_encode (s : String) : utf8Decode (utf8Encode s) = some s.data := by
  unfold utf8Decode utf8Encode
  apply utf8DecodeAux_enc s.data
  induction s.data with
  | nil => simp
  | cons c tl ih =>
    have := utf8EncodeChar_ne_nil c
    have hlen : 1 ≤ (utf8EncodeChar c).length := by
      cases hx : utf8EncodeChar c with
      | nil => exact absurd hx this
      | cons a l => simp
    simp only [List.flatMap_cons, List.length_cons, List.length_append]
    omega

/-! ## JSON round-trip: numbers -/

/-- What may legally follow a serialized value: end of input, or one of the
separators `","`, `"]"`, `"}"` (never whitespace or more number
characters, since `json.dumps(.., separators=(",", ":"))` emits none). -/
def goodRest : List Char → Prop
  | [] => True
  | c :: _ => c = ',' ∨ c = ']' ∨ c = '}'

theorem digitChar_isDigit : ∀ d, d < 10 → isDigitCh (digitChar d) = true := by
  decide

theorem digitVal_digitChar : ∀ d, d < 10 → digitVal (digitChar d) = d := by
  decide

theorem digitChar_ne_zero : ∀ d, d < 10 → 0 < d → digitChar d ≠ '0' := by
  decide

theorem natDigitsAux_spec : ∀ (fuel n : Nat), n < fuel →
    (∀ c ∈ natDigitsAux fuel n, isDigitCh c = true) ∧
    digitsToNat ((natDigitsAux fuel n).map digitVal) = n ∧
    natDigitsAux fuel n ≠ []
  | fuel + 1, n, _ => by
    by_cases h10 : n < 10
    · rw [natDigitsAux, if_pos h10]
      refine ⟨?_, ?_, by simp⟩
      · intro c hc
        simp only [List.mem_singleton] at hc
        subst hc
        exact digitChar_isDigit n h10
      · simp [digitsToNat, digitVal_digitChar n h10]
    · have hrec : n / 10 < fuel := by omega
      have IH := natDigitsAux_spec fuel (n / 10) hrec
      rw [natDigitsAux, if_neg h10]
      refine ⟨?_, ?_, by simp⟩
      · intro c hc
        rcases List.mem_append.mp hc with h | h
        · exact IH.1 c h
        · simp only [List.mem_singleton] at h
          subst h
          exact digitChar_isDigit _ (by omega)
      · rw [List.map_append, List.map_singleton, digitVal_digitChar _ (by omega)]
        unfold digitsToNat at IH ⊢
        rw [List.foldl_append]
        simp only [List.foldl_cons, List.foldl_nil]
        rw [IH.2.1]
        omega

theorem natDigits_spec (n : Nat) :
    (∀ c ∈ natDigits n, isDigitCh c = true) ∧
    digitsToNat ((natDigits n).map digitVal) = n ∧ natDigits n ≠ [] :=
  natDigitsAux_spec (n + 1) n (by omega)

theorem natDigitsAux_head_ne_zero : ∀ (fuel n : Nat), n < fuel → 0 < n →
    ∀ c l, natDigitsAux fuel n = c :: l → c ≠ '0'
  | fuel + 1, n, _, hpos => by
    by_cases h10 : n < 10
    · rw [natDigitsAux, if_pos h10]
      intro c l hcl
      cases hcl
      exact digitChar_ne_zero n h10 hpos
    · rw [natDigitsAux, if_neg h10]
      intro c l hcl
      have hne := (natDigitsAux_spec fuel (n / 10) (by omega)).2.2
      cases hd : natDigitsAux fuel (n / 10) with
      | nil => exact absurd hd hne
      | cons c0 l0 =>
        rw [hd, List.cons_append] at hcl
        have hc0 : c = c0 := by
          exact (List.cons.injEq .. ▸ hcl).1.symm ▸ rfl
        subst hc0
        exact natDigitsAux_head_ne_zero fuel (n / 10) (by omega) (by omega) c l0 hd

/-- A run of digits followed by a non-digit (or nothing) is taken whole. -/
theorem takeDigits_run : ∀ (l : List Char), (∀ c ∈ l, isDigitCh c = true) →
    ∀ (rest : List Char), (∀ c l', rest = c :: l' → isDigitCh c = false) →
    takeDigits (l ++ rest) = (l.map digitVal, rest)
  | [], _, rest, hrest => by
    cases rest with
    | nil => simp [takeDigits]
    | cons c l' =>
      simp only [List.nil_append, List.map_nil, takeDigits]
      rw [hrest c l' rfl]
      simp
  | c :: tl, hl, rest, hrest => by
    have hc : isDigitCh c = true := hl c (by simp)
    rw [List.cons_append, takeDigits, hc]
    simp only [if_true]
    rw [takeDigits_run tl (fun x hx => hl x (by simp [hx])) rest hrest]
    simp

theorem goodRest_head_false (rest : List Char) (h : goodRest rest)
    (c : Char) (l' : List Char) (he : rest = c :: l') :
    isDigitCh c = false ∧ c ≠ '.' ∧ c ≠ 'e' ∧ c ≠ 'E' := by
  subst he
  rcases h with h | h | h <;> subst h <;> exact ⟨by decide, by decide, by decide, by decide⟩

theorem parseFrac_goodRest (rest : List Char) (h : goodRest rest) :
    parseFrac rest = (none, rest) := by
  cases hrest : rest with
  | nil => rfl
  | cons c l' =>
    subst hrest
    have := goodRest_head_false _ h c l' rfl
    rw [parseFrac, if_neg this.2.1]

theorem parseExp_goodRest (rest : List Char) (h : goodRest rest) :
    parseExp rest = (none, rest) := by
  cases hrest : rest with
  | nil => rfl
  | cons c l' =>
    subst hrest
    have hcs := goodRest_head_false _ h c l' rfl
    simp only [parseExp]
    rw [if_neg (by
      rintro (hEq | hEq)
      · exact hcs.2.2.1 hEq
      · exact hcs.2.2.2 hEq)]

/-- `parseNumBody` on a non-zero-headed digit run followed by a `goodRest`
context. -/
theorem parseNumBody_run (neg : Bool) (c0 : Char) (ds rest : List Char)
    (hall : ∀ c ∈ c0 :: ds, isDigitCh c = true) (hc0ne : c0 ≠ '0')
    (hrest : goodRest rest) :
    parseNumBody neg (c0 :: ds ++ rest) =
      some (.int (if neg then -(digitsToNat ((c0 :: ds).map digitVal) : Int)
                  else (digitsToNat ((c0 :: ds).map digitVal) : Int)), rest) := by
  have hc0digit : isDigitCh c0 = true := hall c0 (by simp)
  have htake : takeDigits (c0 :: (ds ++ rest)) = ((c0 :: ds).map digitVal, rest) := by
    have := takeDigits_run (c0 :: ds) hall rest
      (fun c l' he => (goodRest_head_false rest hrest c l' he).1)
    rwa [List.cons_append] at this
  rw [List.cons_append, parseNumBody]
  rw [if_pos hc0digit, if_neg hc0ne, htake]
  simp only []
  rw [parseFrac_goodRest rest hrest]
  simp only []
  rw [parseExp_goodRest rest hrest]

/-- `parseNumBody` on `'0'` followed by a `goodRest` context. -/
theorem parseNumBody_zero (neg : Bool) (rest : List Char) (hrest : goodRest rest) :
    parseNumBody neg ('0' :: rest) = some (.int 0, rest) := by
  rw [parseNumBody]
  rw [if_pos (by decide), if_pos rfl]
  simp only []
  rw [parseFrac_goodRest rest hrest]
  simp only []
  rw [parseExp_goodRest rest hrest]
  cases neg <;> simp [digitsToNat]

/-- `parseNumber` inverts `str(int)` serialization in any `goodRest`
context. -/
theorem parseNumber_intChars (n : Int) (rest : List Char) (hrest : goodRest rest) :
    parseNumber (intChars n ++ rest) = some (.int n, rest) := by
  by_cases hz : n = 0
  · subst hz
    show parseNumber ('0' :: rest) = _
    rw [parseNumber]
    rw [if_neg (by decide)]
    exact parseNumBody_zero false rest hrest
  · cases hd : natDigits n.natAbs with
    | nil => exact absurd hd (natDigits_spec n.natAbs).2.2
    | cons c0 ds =>
      have hall : ∀ c ∈ c0 :: ds, isDigitCh c = true := by
        rw [← hd]
        exact (natDigits_spec _).1
      have habspos : 0 < n.natAbs := by omega
      have hc0ne : c0 ≠ '0' :=
        natDigitsAux_head_ne_zero (n.natAbs + 1) n.natAbs (by omega) habspos
          c0 ds hd
      have hval : (digitsToNat ((c0 :: ds).map digitVal) : Int) = (n.natAbs : Int) := by
        rw [← hd, (natDigits_spec _).2.1]
      by_cases hneg : n < 0
      · rw [intChars, if_pos hneg, hd, List.cons_append, List.cons_append]
        rw [parseNumber]
        rw [if_pos rfl, ← List.cons_append,
          parseNumBody_run true c0 ds rest hall hc0ne hrest]
        simp only [if_pos rfl]
        rw [hval]
        have hn : -(n.natAbs : Int) = n := by omega
        rw [hn]
        simp
      · rw [intChars, if_neg hneg, hd, List.cons_append]
        have hc0nedash : c0 ≠ '-' := by
          intro hEq
          have := hall c0 (by simp)
          rw [hEq] at this
          exact absurd this (by decide)
        rw [parseNumber]
        rw [if_neg hc0nedash, ← List.cons_append,
          parseNumBody_run false c0 ds rest hall hc0ne hrest]
        simp only [if_neg Bool.false_ne_true]
        rw [hval]
        have hn : (n.natAbs : Int) = n := by omega
        rw [hn]

/-! ## JSON round-trip: strings -/

theorem hexVal_hexChar : ∀ d, d < 16 → hexVal (hexChar d) = some d := by decide

theorem hex4_enc (t : Nat) (ht : t < 256) (cs : List Char) :
    hex4 ('0' :: '0' :: hexChar (t / 16) :: hexChar (t % 16) :: cs) =
      some (t, cs) := by
  rw [hex4, show hexVal '0' = some 0 from rfl,
    hexVal_hexChar (t / 16) (by omega), hexVal_hexChar (t % 16) (by omega)]
  simp only []
  congr 1
  rw [Prod.mk.injEq]
  exact ⟨by omega, rfl⟩

/-- One-step unfolding of `parseStrAux` on a cons cell (the equation
compiler does not emit per-arm equations for this definition). -/
theorem parseStrAux_cons (fuel : Nat) (c : Char) (rest acc : List Char) :
    parseStrAux (fuel + 1) (c :: rest) acc =
      (if c = '"' then some (String.mk acc.reverse, rest)
      else if c = '\\' then
        match rest with
        | [] => none
        | e :: r2 =>
          if e = 'u' then
            match hex4 r2 with
            | none => none
            | some (n, r3) =>
              if 55296 ≤ n ∧ n < 56320 then
                match r3 with
                | '\\' :: 'u' :: r4 =>
                  match hex4 r4 with
                  | none => none
                  | some (n2, r5) =>
                    if 56320 ≤ n2 ∧ n2 < 57344 then
                      parseStrAux fuel r5
                        (Char.ofNat (65536 + (n - 55296) * 1024 + (n2 - 56320)) :: acc)
                    else parseStrAux fuel r3 ('�' :: acc)
                | _ => parseStrAux fuel r3 ('�' :: acc)
              else if 56320 ≤ n ∧ n < 57344 then parseStrAux fuel r3 ('�' :: acc)
              else parseStrAux fuel r3 (Char.ofNat n :: acc)
          else
            match escTable e with
            | some c' => parseStrAux fuel r2 (c' :: acc)
            | none => none
      else if c.toNat < 32 then none
      else parseStrAux fuel rest (c :: acc)) := rfl

/-- Consuming one escaped source character: the parser pushes exactly that
character and moves on. -/
theorem parseStrAux_escChar_step (c : Char) (cs acc : List Char) (f : Nat) :
    parseStrAux (f + 1) (escChar c ++ cs) acc = parseStrAux f cs (c :: acc) := by
  by_cases h1 : c = '"'
  · subst h1
    rw [show escChar '"' ++ cs = '\\' :: '"' :: cs from rfl, parseStrAux_cons]
    simp [escTable]
  · by_cases h2 : c = '\\'
    · subst h2
      rw [show escChar '\\' ++ cs = '\\' :: '\\' :: cs from rfl, parseStrAux_cons]
      simp [escTable]
    · by_cases h3 : c.toNat < 32
      · have hofn := Char.ofNat_toNat c
        by_cases hb : c.toNat = 8
        · have hc : c = '\x08' := by rw [← hofn, hb]
          subst hc
          rw [show escChar '\x08' ++ cs = '\\' :: 'b' :: cs from rfl,
            parseStrAux_cons]
          simp [escTable]
        · by_cases ht : c.toNat = 9
          · have hc : c = '\x09' := by rw [← hofn, ht]
            subst hc
            rw [show escChar '\x09' ++ cs = '\\' :: 't' :: cs from rfl,
              parseStrAux_cons]
            simp [escTable]
          · by_cases hn : c.toNat = 10
            · have hc : c = '\x0a' := by rw [← hofn, hn]
              subst hc
              rw [show escChar '\x0a' ++ cs = '\\' :: 'n' :: cs from rfl,
                parseStrAux_cons]
              simp [escTable]
            · by_cases hfc : c.toNat = 12
              · have hc : c = '\x0c' := by rw [← hofn, hfc]
                subst hc
                rw [show escChar '\x0c' ++ cs = '\\' :: 'f' :: cs from rfl,
                  parseStrAux_cons]
                simp [escTable]
              · by_cases hr : c.toNat = 13
                · have hc : c = '\x0d' := by rw [← hofn, hr]
                  subst hc
                  rw [show escChar '\x0d' ++ cs = '\\' :: 'r' :: cs from rfl,
                    parseStrAux_cons]
                  simp [escTable]
                · have hesc : escChar c = '\\' :: 'u' :: '0' :: '0' ::
                      hexChar (c.toNat / 16) :: hexChar (c.toNat % 16) :: [] := by
                    rw [escChar, if_neg h1, if_neg h2, if_pos h3, if_neg hb,
                      if_neg ht, if_neg hn, if_neg hfc, if_neg hr]
                  rw [hesc]
                  simp only [List.cons_append, List.nil_append]
                  rw [parseStrAux_cons]
                  rw [if_neg (by decide), if_pos rfl]
                  simp only []
                  rw [if_pos trivial]
                  rw [hex4_enc c.toNat (by omega) cs]
                  simp only []
                  rw [if_neg (by omega), if_neg (by omega), hofn]
      · have hesc : escChar c = [c] := by
          rw [escChar, if_neg h1, if_neg h2, if_neg h3]
        rw [hesc, List.cons_append, List.nil_append, parseStrAux_cons,
          if_neg h1, if_neg h2, if_neg h3]

/-- The string-body parser inverts the `json.dumps` escaping: after the
escaped characters and the closing quote, it returns the original string
(appended to the accumulator) and the remaining input. -/
theorem parseStrAux_esc : ∀ (l : List Char) (fuel : Nat) (acc rest : List Char),
    l.length < fuel →
    parseStrAux fuel (l.flatMap escChar ++ '"' :: rest) acc =
      some (String.mk (acc.reverse ++ l), rest)
  | [], fuel, acc, rest, hf => by
    obtain ⟨f, rfl⟩ : ∃ f, fuel = f + 1 := ⟨fuel - 1, by omega⟩
    simp only [List.flatMap_nil, List.nil_append]
    rw [parseStrAux_cons, if_pos rfl]
    simp
  | c :: tl, fuel, acc, rest, hf => by
    obtain ⟨f, rfl⟩ : ∃ f, fuel = f + 1 := ⟨fuel - 1, by omega⟩
    have hlen : tl.length < f := by
      simp only [List.length_cons] at hf
      omega
    simp only [List.flatMap_cons, List.append_assoc]
    rw [parseStrAux_escChar_step c _ acc f,
      parseStrAux_esc tl f (c :: acc) rest hlen]
    simp

/-! ## JSON round-trip: fuel measures and object folding -/

mutual
/-- A fuel bound for `parseVal`: one unit per value plus one per
element/member step. -/
def jfuelJ : Json → Nat
  | .null => 1
  | .bool _ => 1
  | .int _ => 1
  | .float _ _ _ _ => 1
  | .nan => 1
  | .inf _ => 1
  | .str _ => 1
  | .arr xs => 1 + jfuelL xs
  | .obj es => 1 + jfuelO es
def jfuelL : JsonList → Nat
  | .nil => 0
  | .cons x tl => 1 + jfuelJ x + jfuelL tl
def jfuelO : JsonObj → Nat
  | .nil => 0
  | .cons _ v tl => 1 + jfuelJ v + jfuelO tl
end

theorem escChar_len (c : Char) : 1 ≤ (escChar c).length := by
  rw [escChar]
  split_ifs <;> simp

theorem flatMap_escChar_len (l : List Char) :
    l.length ≤ (l.flatMap escChar).length := by
  induction l with
  | nil => simp
  | cons c tl ih =>
    have := escChar_len c
    simp only [List.flatMap_cons, List.length_cons, List.length_append]
    omega

theorem escString_len (s : String) : 2 ≤ (escString s).length := by
  simp [escString]

theorem intChars_ne_nil (n : Int) : intChars n ≠ [] := by
  rw [intChars]
  split_ifs
  · simp
  · exact (natDigits_spec n.natAbs).2.2

mutual
theorem jfuelJ_le : ∀ v : Json, jfuelJ v ≤ (dumpJson v).length
  | .null => by simp [jfuelJ, dumpJson]
  | .bool true => by simp [jfuelJ, dumpJson]
  | .bool false => by simp [jfuelJ, dumpJson]
  | .int n => by
    have := intChars_ne_nil n
    rw [jfuelJ, dumpJson]
    cases h : intChars n with
    | nil => exact absurd h this
    | cons a l => simp
  | .float neg ip frac ex => by
    rw [jfuelJ, dumpJson, floatChars]
    simp only [List.length_append, List.length_cons]
    omega
  | .nan => by simp [jfuelJ, dumpJson]
  | .inf true => by simp [jfuelJ, dumpJson]
  | .inf false => by simp [jfuelJ, dumpJson]
  | .str s => by
    have := escString_len s
    rw [jfuelJ, dumpJson]
    omega
  | .arr .nil => by simp [jfuelJ, jfuelL, dumpJson]
  | .arr (.cons x tl) => by
    have h1 := jfuelJ_le x
    have h2 := jfuelL_le tl
    rw [jfuelJ, jfuelL, dumpJson]
    simp only [List.length_cons, List.length_append]
    omega
  | .obj .nil => by simp [jfuelJ, jfuelO, dumpJson]
  | .obj (.cons k v tl) => by
    have h1 := jfuelJ_le v
    have h2 := jfuelO_le tl
    have h3 := escString_len k
    rw [jfuelJ, jfuelO, dumpJson]
    simp only [List.length_cons, List.length_append]
    omega
theorem jfuelL_le : ∀ xs : JsonList, jfuelL xs ≤ (dumpJsonArr xs).length
  | .nil => by simp [jfuelL, dumpJsonArr]
  | .cons x tl => by
    have h1 := jfuelJ_le x
    have h2 := jfuelL_le tl
    rw [jfuelL, dumpJsonArr]
    simp only [List.length_cons, List.length_append]
    omega
theorem jfuelO_le : ∀ es : JsonObj, jfuelO es ≤ (dumpJsonObj es).length
  | .nil => by simp [jfuelO, dumpJsonObj]
  | .cons k v tl => by
    have h1 := jfuelJ_le v
    have h2 := jfuelO_le tl
    have h3 := escString_len k
    rw [jfuelO, dumpJsonObj]
    simp only [List.length_cons, List.length_append]
    omega
end

/-- Concatenation of entry lists. -/
def objAppend : JsonObj → JsonObj → JsonObj
  | .nil, e => e
  | .cons k v tl, e => .cons k v (objAppend tl e)

theorem objAppend_nil : ∀ o : JsonObj, objAppend o .nil = o
  | .nil => rfl
  | .cons k v tl => by rw [objAppend, objAppend_nil tl]

theorem hasKey_objAppend : ∀ (a b : JsonObj) (k : String),
    hasKey (objAppend a b) k = (hasKey a k || hasKey b k)
  | .nil, b, k => by simp [objAppend, hasKey]
  | .cons k' v tl, b, k => by
    rw [objAppend, hasKey, hasKey, hasKey_objAppend tl b k, Bool.or_assoc]

theorem objUpdate_notmem : ∀ (a : JsonObj) (k : String) (v : Json),
    hasKey a k = false → objUpdate a k v = objAppend a (.cons k v .nil)
  | .nil, k, v, _ => rfl
  | .cons k' v' tl, k, v, h => by
    rw [hasKey, Bool.or_eq_false_iff] at h
    have hne : k' ≠ k := by
      intro hEq
      rw [hEq] at h
      simp at h
    rw [objUpdate, if_neg hne, objAppend, objUpdate_notmem tl k v h.2]

theorem objAppend_assoc : ∀ a b c : JsonObj,
    objAppend (objAppend a b) c = objAppend a (objAppend b c)
  | .nil, _, _ => rfl
  | .cons k v tl, b, c => by
    rw [objAppend, objAppend, objAppend, objAppend_assoc tl b c]

/-- Folding raw parsed entries into a dict is plain concatenation when the
raw keys are distinct and disjoint from the accumulator. -/
theorem objFromEntries_disjoint : ∀ (raw acc : JsonObj),
    jsonWFObj raw = true →
    (∀ k, hasKey raw k = true → hasKey acc k = false) →
    objFromEntries acc raw = objAppend acc raw
  | .nil, acc, _, _ => by rw [objFromEntries, objAppend_nil]
  | .cons k v tl, acc, hwf, hdisj => by
    rw [jsonWFObj, Bool.and_eq_true, Bool.and_eq_true, Bool.not_eq_true'] at hwf
    have hacck : hasKey acc k = false := hdisj k (by simp [hasKey])
    rw [objFromEntries, objUpdate_notmem acc k v hacck,
      objFromEntries_disjoint tl (objAppend acc (.cons k v .nil)) hwf.2 ?_,
      objAppend_assoc]
    · rfl
    · intro k' hk'
      rw [hasKey_objAppend, Bool.or_eq_false_iff]
      constructor
      · exact hdisj k' (by simp [hasKey, hk'])
      · have hne : k ≠ k' := by
          intro hEq
          rw [hEq] at hwf
          rw [hwf.1.1] at hk'
          cases hk'
        simp [hasKey, hne]

/-- For distinct keys (a payload that came from a Python `dict`), the entry
fold is the identity. -/
theorem objFromEntries_wf (raw : JsonObj) (h : jsonWFObj raw = true) :
    objFromEntries .nil raw = raw :=
  objFromEntries_disjoint raw .nil h (fun _ _ => rfl)

/-! ## JSON round-trip: head characters and whitespace -/

theorem skipWs_cons_nws {c : Char} (l : List Char) (h : isJsonWs c = false) :
    skipWs (c :: l) = c :: l := by
  simp [skipWs, List.dropWhile_cons, h]

theorem digit_not_ws {c : Char} (h : isDigitCh c = true) : isJsonWs c = false := by
  by_contra hw
  rw [Bool.not_eq_false] at hw
  simp only [isJsonWs, Bool.or_eq_true, decide_eq_true_eq] at hw
  rcases hw with ((rfl | rfl) | rfl) | rfl <;> exact absurd h (by decide)

theorem digit_ne {c d : Char} (h : isDigitCh c = true)
    (hd : isDigitCh d = false) : c ≠ d := by
  intro hEq
  rw [hEq, hd] at h
  cases h

theorem intChars_head (n : Int) : ∃ c0 l, intChars n = c0 :: l ∧
    (c0 = '-' ∨ isDigitCh c0 = true) := by
  rw [intChars]
  split_ifs
  · exact ⟨'-', natDigits n.natAbs, rfl, Or.inl rfl⟩
  · cases hd : natDigits n.natAbs with
    | nil => exact absurd hd (natDigits_spec n.natAbs).2.2
    | cons c0 l =>
      exact ⟨c0, l, rfl, Or.inr ((natDigits_spec n.natAbs).1 c0 (by rw [hd]; simp))⟩

/-- Head facts about a serialized number: its first character is `-` or a
digit, hence distinct from every dispatch character of the scanner. -/
theorem num_head_facts (c0 : Char) (h : c0 = '-' ∨ isDigitCh c0 = true) :
    c0 ≠ '"' ∧ c0 ≠ '{' ∧ c0 ≠ '[' ∧ c0 ≠ 'n' ∧ c0 ≠ 't' ∧ c0 ≠ 'f' ∧
    isJsonWs c0 = false ∧ c0 ≠ ']' ∧ c0 ≠ '}' ∧ c0 ≠ '﻿' := by
  rcases h with rfl | h
  · refine ⟨by decide, by decide, by decide, by decide, by decide, by decide,
      by decide, by decide, by decide, by decide⟩
  · exact ⟨digit_ne h (by decide), digit_ne h (by decide), digit_ne h (by decide),
      digit_ne h (by decide), digit_ne h (by decide), digit_ne h (by decide),
      digit_not_ws h, digit_ne h (by decide), digit_ne h (by decide),
      digit_ne h (by decide)⟩

/-- Every serialized well-formed value starts with a non-whitespace
character that is not a closing bracket and not a BOM. -/
theorem dumpJson_head (v : Json) (hwf : jsonWF v = true) :
    ∃ c0 l, dumpJson v = c0 :: l ∧ isJsonWs c0 = false ∧
      c0 ≠ ']' ∧ c0 ≠ '}' ∧ c0 ≠ '﻿' := by
  cases v with
  | null => exact ⟨'n', _, rfl, by decide, by decide, by decide, by decide⟩
  | bool b =>
    cases b
    · exact ⟨'f', _, rfl, by decide, by decide, by decide, by decide⟩
    · exact ⟨'t', _, rfl, by decide, by decide, by decide, by decide⟩
  | int n =>
    obtain ⟨c0, l, hd, hcls⟩ := intChars_head n
    have hf := num_head_facts c0 hcls
    exact ⟨c0, l, by rw [dumpJson, hd], hf.2.2.2.2.2.2.1,
      hf.2.2.2.2.2.2.2.1, hf.2.2.2.2.2.2.2.2.1, hf.2.2.2.2.2.2.2.2.2⟩
  | float neg ip frac ex => rw [jsonWF] at hwf; cases hwf
  | nan => rw [jsonWF] at hwf; cases hwf
  | inf neg => rw [jsonWF] at hwf; cases hwf
  | str s => exact ⟨'"', _, rfl, by decide, by decide, by decide, by decide⟩
  | arr xs =>
    cases xs
    · exact ⟨'[', _, rfl, by decide, by decide, by decide, by decide⟩
    · exact ⟨'[', _, rfl, by decide, by decide, by decide, by decide⟩
  | obj es =>
    cases es
    · exact ⟨'{', _, rfl, by decide, by decide, by decide, by decide⟩
    · exact ⟨'{', _, rfl, by decide, by decide, by decide, by decide⟩

theorem goodRest_dumpArr (tl : JsonList) (rest : List Char) :
    goodRest (dumpJsonArr tl ++ ']' :: rest) := by
  cases tl
  · simp [dumpJsonArr, goodRest]
  · simp [dumpJsonArr, goodRest]

theorem goodRest_dumpObj (tl : JsonObj) (rest : List Char) :
    goodRest (dumpJsonObj tl ++ '}' :: rest) := by
  cases tl
  · simp [dumpJsonObj, goodRest]
  · simp [dumpJsonObj, goodRest]

/-! ## JSON round-trip: the parser inverts the serializer -/

mutual
/-- `parseVal` inverts `dumpJson` on well-formed values, in any `goodRest`
context, given enough fuel. -/
theorem parseVal_dump : ∀ (v : Json) (fuel : Nat) (rest : List Char),
    jsonWF v = true → jfuelJ v ≤ fuel → goodRest rest →
    parseVal fuel (dumpJson v ++ rest) = some (v, rest)
  | .null, fuel, rest, _, hf, _ => by
    rw [jfuelJ] at hf
    obtain ⟨f, rfl⟩ : ∃ f, fuel = f + 1 := ⟨fuel - 1, by omega⟩
    show parseVal (f + 1) ('n' :: 'u' :: 'l' :: 'l' :: rest) = _
    rw [parseVal, if_neg (by decide), if_neg (by decide), if_neg (by decide),
      if_pos rfl, if_pos (by simp)]
    simp
  | .bool true, fuel, rest, _, hf, _ => by
    rw [jfuelJ] at hf
    obtain ⟨f, rfl⟩ : ∃ f, fuel = f + 1 := ⟨fuel - 1, by omega⟩
    show parseVal (f + 1) ('t' :: 'r' :: 'u' :: 'e' :: rest) = _
    rw [parseVal, if_neg (by decide), if_neg (by decide), if_neg (by decide),
      if_neg (by decide), if_pos rfl, if_pos (by simp)]
    simp
  | .bool false, fuel, rest, _, hf, _ => by
    rw [jfuelJ] at hf
    obtain ⟨f, rfl⟩ : ∃ f, fuel = f + 1 := ⟨fuel - 1, by omega⟩
    show parseVal (f + 1) ('f' :: 'a' :: 'l' :: 's' :: 'e' :: rest) = _
    rw [parseVal, if_neg (by decide), if_neg (by decide), if_neg (by decide),
      if_neg (by decide), if_neg (by decide), if_pos rfl, if_pos (by simp)]
    simp
  | .int n, fuel, rest, _, hf, hrest => by
    rw [jfuelJ] at hf
    obtain ⟨f, rfl⟩ : ∃ f, fuel = f + 1 := ⟨fuel - 1, by omega⟩
    obtain ⟨c0, l, hd, hcls⟩ := intChars_head n
    have hfacts := num_head_facts c0 hcls
    have hnum := parseNumber_intChars n rest hrest
    rw [show dumpJson (.int n) = intChars n from rfl, hd, List.cons_append,
      parseVal, if_neg hfacts.1, if_neg hfacts.2.1, if_neg hfacts.2.2.1,
      if_neg hfacts.2.2.2.1, if_neg hfacts.2.2.2.2.1, if_neg hfacts.2.2.2.2.2.1,
      ← List.cons_append, ← hd, hnum]
  | .float neg ip frac ex, _, _, hwf, _, _ => by
    rw [jsonWF] at hwf
    cases hwf
  | .nan, _, _, hwf, _, _ => by
    rw [jsonWF] at hwf
    cases hwf
  | .inf neg, _, _, hwf, _, _ => by
    rw [jsonWF] at hwf
    cases hwf
  | .str s, fuel, rest, _, hf, _ => by
    rw [jfuelJ] at hf
    obtain ⟨f, rfl⟩ : ∃ f, fuel = f + 1 := ⟨fuel - 1, by omega⟩
    have hshape : dumpJson (.str s) ++ rest =
        '"' :: (s.data.flatMap escChar ++ '"' :: rest) := by
      rw [show dumpJson (.str s) = escString s from rfl, escString]
      simp
    have hlen : s.data.length < (s.data.flatMap escChar ++ '"' :: rest).length := by
      have := flatMap_escChar_len s.data
      simp only [List.length_append, List.length_cons]
      omega
    rw [hshape, parseVal, if_pos rfl, parseStrAux_esc s.data _ [] rest hlen]
    simp
  | .arr .nil, fuel, rest, _, hf, _ => by
    rw [jfuelJ] at hf
    obtain ⟨f, rfl⟩ : ∃ f, fuel = f + 1 := ⟨fuel - 1, by omega⟩
    show parseVal (f + 1) ('[' :: ']' :: rest) = _
    rw [parseVal, if_neg (by decide), if_neg (by decide), if_pos rfl,
      skipWs_cons_nws _ (by decide)]
    simp
  | .arr (.cons x tl), fuel, rest, hwf, hf, hrest => by
    rw [jsonWF, jsonWFList, Bool.and_eq_true] at hwf
    rw [jfuelJ, jfuelL] at hf
    obtain ⟨f, rfl⟩ : ∃ f, fuel = f + 1 := ⟨fuel - 1, by omega⟩
    obtain ⟨c0, l, hdx, hws, hnrb, _, _⟩ := dumpJson_head x hwf.1
    have hshape : dumpJson (.arr (.cons x tl)) ++ rest =
        '[' :: (dumpJson x ++ (dumpJsonArr tl ++ ']' :: rest)) := by
      rw [show dumpJson (.arr (.cons x tl)) =
        '[' :: (dumpJson x ++ dumpJsonArr tl) ++ [']'] from rfl]
      simp
    rw [hshape, parseVal, if_neg (by decide), if_neg (by decide), if_pos rfl,
      hdx, List.cons_append, skipWs_cons_nws _ hws]
    simp only []
    rw [if_neg hnrb, ← List.cons_append, ← hdx,
      parseArrTail_dump x tl f rest hwf.1 hwf.2 (by omega) hrest]
  | .obj .nil, fuel, rest, _, hf, _ => by
    rw [jfuelJ] at hf
    obtain ⟨f, rfl⟩ : ∃ f, fuel = f + 1 := ⟨fuel - 1, by omega⟩
    show parseVal (f + 1) ('{' :: '}' :: rest) = _
    rw [parseVal, if_neg (by decide), if_pos rfl, skipWs_cons_nws _ (by decide)]
    simp
  | .obj (.cons k v tl), fuel, rest, hwf, hf, hrest => by
    rw [jsonWF] at hwf
    have hwf' := hwf
    rw [jsonWFObj, Bool.and_eq_true, Bool.and_eq_true] at hwf'
    rw [jfuelJ, jfuelO] at hf
    obtain ⟨f, rfl⟩ : ∃ f, fuel = f + 1 := ⟨fuel - 1, by omega⟩
    have hshape : dumpJson (.obj (.cons k v tl)) ++ rest =
        '{' :: ('"' :: (k.data.flatMap escChar ++ '"' ::
          (':' :: (dumpJson v ++ (dumpJsonObj tl ++ '}' :: rest))))) := by
      rw [show dumpJson (.obj (.cons k v tl)) =
        '{' :: (escString k ++ ':' :: dumpJson v ++ dumpJsonObj tl) ++ ['}']
        from rfl, escString]
      simp
    rw [hshape, parseVal, if_neg (by decide), if_pos rfl,
      skipWs_cons_nws _ (by decide)]
    simp only []
    rw [if_neg (by decide)]
    have hobj : parseObjTail f ('"' :: (k.data.flatMap escChar ++ '"' ::
        (':' :: (dumpJson v ++ (dumpJsonObj tl ++ '}' :: rest))))) =
        some (.cons k v tl, rest) := by
      have := parseObjTail_dump k v tl f rest hwf'.1.2 hwf'.2 (by omega) hrest
      rw [show escString k ++ (':' :: (dumpJson v ++ (dumpJsonObj tl ++ '}' :: rest))) =
        '"' :: (k.data.flatMap escChar ++ '"' ::
          (':' :: (dumpJson v ++ (dumpJsonObj tl ++ '}' :: rest)))) from by
        rw [escString]; simp] at this
      exact this
    rw [hobj]
    simp only []
    rw [objFromEntries_wf _ hwf]
termination_by v _ _ _ _ _ => sizeOf v
/-- `parseArrTail` consumes the serialized elements of a non-empty array up
to the closing bracket. -/
theorem parseArrTail_dump : ∀ (x : Json) (tl : JsonList) (fuel : Nat)
    (rest : List Char), jsonWF x = true → jsonWFList tl = true →
    1 + jfuelJ x + jfuelL tl ≤ fuel → goodRest rest →
    parseArrTail fuel (dumpJson x ++ (dumpJsonArr tl ++ ']' :: rest)) =
      some (.cons x tl, rest)
  | x, tl, fuel, rest, hwx, hwtl, hf, hrest => by
    obtain ⟨f, rfl⟩ : ∃ f, fuel = f + 1 := ⟨fuel - 1, by omega⟩
    rw [parseArrTail, parseVal_dump x f (dumpJsonArr tl ++ ']' :: rest) hwx
      (by omega) (goodRest_dumpArr tl rest)]
    simp only []
    cases tl with
    | nil =>
      rw [show dumpJsonArr .nil ++ ']' :: rest = ']' :: rest from rfl,
        skipWs_cons_nws _ (by decide)]
      simp
    | cons y tl2 =>
      rw [jsonWFList, Bool.and_eq_true] at hwtl
      rw [jfuelL] at hf
      obtain ⟨c0, l, hdy, hwsy, _, _, _⟩ := dumpJson_head y hwtl.1
      rw [show dumpJsonArr (.cons y tl2) ++ ']' :: rest =
        ',' :: ((dumpJson y ++ dumpJsonArr tl2) ++ ']' :: rest) from by
        rw [show dumpJsonArr (.cons y tl2) =
          ',' :: dumpJson y ++ dumpJsonArr tl2 from rfl]
        simp, skipWs_cons_nws _ (by decide)]
      simp only []
      rw [List.append_assoc, hdy, List.cons_append, skipWs_cons_nws _ hwsy,
        ← List.cons_append, ← hdy,
        parseArrTail_dump y tl2 f rest hwtl.1 hwtl.2 (by omega) hrest]
termination_by x tl _ _ _ _ _ _ => 1 + sizeOf x + sizeOf tl
/-- `parseObjTail` consumes the serialized members of a non-empty object up
to the closing brace, returning them in source order. -/
theorem parseObjTail_dump : ∀ (k : String) (v : Json) (tl : JsonObj)
    (fuel : Nat) (rest : List Char), jsonWF v = true → jsonWFObj tl = true →
    1 + jfuelJ v + jfuelO tl ≤ fuel → goodRest rest →
    parseObjTail fuel (escString k ++
        (':' :: (dumpJson v ++ (dumpJsonObj tl ++ '}' :: rest)))) =
      some (.cons k v tl, rest)
  | k, v, tl, fuel, rest, hwv, hwtl, hf, hrest => by
    obtain ⟨f, rfl⟩ : ∃ f, fuel = f + 1 := ⟨fuel - 1, by omega⟩
    have hshape : escString k ++
        (':' :: (dumpJson v ++ (dumpJsonObj tl ++ '}' :: rest))) =
        '"' :: (k.data.flatMap escChar ++ '"' ::
          (':' :: (dumpJson v ++ (dumpJsonObj tl ++ '}' :: rest)))) := by
      rw [escString]
      simp
    have hlen : k.data.length < (k.data.flatMap escChar ++ '"' ::
        (':' :: (dumpJson v ++ (dumpJsonObj tl ++ '}' :: rest)))).length := by
      have := flatMap_escChar_len k.data
      simp only [List.length_append, List.length_cons]
      omega
    rw [hshape, parseObjTail, parseStrAux_esc k.data _ [] _ hlen]
    simp only [List.reverse_nil, List.nil_append]
    rw [skipWs_cons_nws _ (by decide)]
    simp only []
    obtain ⟨c0, l, hdv, hwsv, _, _, _⟩ := dumpJson_head v hwv
    rw [hdv, List.cons_append, skipWs_cons_nws _ hwsv, ← List.cons_append,
      ← hdv, parseVal_dump v f _ hwv (by omega) (goodRest_dumpObj tl rest)]
    simp only []
    cases tl with
    | nil =>
      rw [show dumpJsonObj .nil ++ '}' :: rest = '}' :: rest from rfl,
        skipWs_cons_nws _ (by decide)]
      simp
    | cons k2 v2 tl2 =>
      rw [jsonWFObj, Bool.and_eq_true, Bool.and_eq_true] at hwtl
      rw [jfuelO] at hf
      rw [show dumpJsonObj (.cons k2 v2 tl2) ++ '}' :: rest =
        ',' :: ((escString k2 ++ ':' :: dumpJson v2) ++
          (dumpJsonObj tl2 ++ '}' :: rest)) from by
        rw [show dumpJsonObj (.cons k2 v2 tl2) =
          ',' :: (escString k2 ++ ':' :: dumpJson v2) ++ dumpJsonObj tl2
          from rfl]
        simp, skipWs_cons_nws _ (by decide)]
      simp only []
      have hskip2 : skipWs ((escString k2 ++ ':' :: dumpJson v2) ++
          (dumpJsonObj tl2 ++ '}' :: rest)) =
          (escString k2 ++ ':' :: dumpJson v2) ++
            (dumpJsonObj tl2 ++ '}' :: rest) := by
        rw [escString]
        simp only [List.cons_append, List.append_assoc]
        rw [skipWs_cons_nws _ (by decide)]
      rw [hskip2, show (escString k2 ++ ':' :: dumpJson v2) ++
          (dumpJsonObj tl2 ++ '}' :: rest) =
          escString k2 ++ (':' :: (dumpJson v2 ++
            (dumpJsonObj tl2 ++ '}' :: rest))) from by simp,
        parseObjTail_dump k2 v2 tl2 f rest hwtl.1.2 hwtl.2 (by omega) hrest]
termination_by _ v tl _ _ _ _ _ _ => 1 + sizeOf v + sizeOf tl
end

/-- **JSON round-trip**: `json.loads` inverts `json.dumps` on every value a
Python dict can denote. -/
theorem jsonLoads_dumps (v : Json) (hwf : jsonWF v = true) :
    jsonLoads (jsonDumps v) = some v := by
  obtain ⟨c0, l, hd, hws, _, _, hbom⟩ := dumpJson_head v hwf
  rw [jsonLoads]
  have hdata : (jsonDumps v).data = dumpJson v := rfl
  rw [hdata]
  have hbomf : startsWithBom (dumpJson v) = false := by
    rw [hd]
    simp [startsWithBom, hbom]
  rw [hbomf]
  simp only [Bool.false_eq_true, if_false]
  have hskip : skipWs (dumpJson v) = dumpJson v := by
    rw [hd]
    exact skipWs_cons_nws _ hws
  rw [hskip]
  have hfuel : jfuelJ v ≤ (dumpJson v).length + (dumpJson v).length + 2 := by
    have := jfuelJ_le v
    omega
  have hp := parseVal_dump v ((dumpJson v).length + (dumpJson v).length + 2) []
    hwf hfuel trivial
  rw [List.append_nil] at hp
  rw [hp]
  simp [skipWs]

/-! ## The signed-token pipeline -/

theorem utf8EncodeChar_lt256 (c : Char) : ∀ x ∈ utf8EncodeChar c, x < 256 := by
  have hval := char_toNat_valid c
  intro x hx
  rw [utf8EncodeChar] at hx
  split_ifs at hx <;> simp only [List.mem_cons, List.not_mem_nil, or_false] at hx
  · omega
  · rcases hx with rfl | rfl <;> omega
  · rcases hx with rfl | rfl | rfl <;> omega
  · rcases hx with rfl | rfl | rfl | rfl <;> omega

theorem utf8Encode_lt256 (s : String) : ∀ x ∈ utf8Encode s, x < 256 := by
  intro x hx
  rw [utf8Encode] at hx
  obtain ⟨c, _, hc⟩ := List.mem_flatMap.mp hx
  exact utf8EncodeChar_lt256 c x hc

theorem takeWhile_no_dot : ∀ (l : List Char), '.' ∉ l → ∀ r : List Char,
    (l ++ '.' :: r).takeWhile (· ≠ '.') = l
  | [], _, r => by simp
  | c :: tl, h, r => by
    have hc : c ≠ '.' := fun hEq => h (by rw [hEq]; simp)
    have htl : '.' ∉ tl := fun hm => h (by simp [hm])
    rw [List.cons_append, List.takeWhile_cons, if_pos (by simp [hc]),
      takeWhile_no_dot tl htl r]

theorem dropWhile_no_dot : ∀ (l : List Char), '.' ∉ l → ∀ r : List Char,
    (l ++ '.' :: r).dropWhile (· ≠ '.') = '.' :: r
  | [], _, r => by simp
  | c :: tl, h, r => by
    have hc : c ≠ '.' := fun hEq => h (by rw [hEq]; simp)
    have htl : '.' ∉ tl := fun hm => h (by simp [hm])
    rw [List.cons_append, List.dropWhile_cons, if_pos (by simp [hc]),
      dropWhile_no_dot tl htl r]

theorem span_no_dot (l : List Char) (h : '.' ∉ l) (r : List Char) :
    (l ++ '.' :: r).span (· ≠ '.') = (l, '.' :: r) := by
  rw [List.span_eq_take_drop, takeWhile_no_dot l h r, dropWhile_no_dot l h r]

/-- Splitting a token built from a dot-free first segment. -/
theorem splitToken_build (a b : String) (ha : '.' ∉ a.data) :
    splitToken (a ++ "." ++ b) = some (a, b) := by
  rw [splitToken]
  have hdata : (a ++ "." ++ b).data = a.data ++ '.' :: b.data := by
    simp [String.data_append]
  rw [hdata, span_no_dot a.data ha b.data]

theorem b64url_no_dot (bs : List Nat) (h : ∀ x ∈ bs, x < 256) :
    '.' ∉ (_b64url bs).data := by
  intro hmem
  have : (_b64url bs).data = b64urlChars bs := rfl
  rw [this] at hmem
  obtain ⟨v, hv, hEq⟩ := b64urlChars_mem bs h '.' hmem
  exact alph_ne_dot v hv hEq.symm

/-- The outcome `verify_license` reaches once a token has authenticated:
decided by the payload's shape and its `exp` member (the tail of the
verifier after the signature comparison). -/
def expOutcome (payload : Json) (now : Int) : Bool × Option Json × String :=
  match payload with
  | .obj entries =>
    match objGet entries "exp" with
    | none => (true, some payload, "ok")
    | some e =>
      if pyTruthy e then
        match pyInt e with
        | none => (false, none, "malformed")
        | some exp =>
            if now > exp then (false, some payload, "expired")
            else (true, some payload, "ok")
      else (true, some payload, "ok")
  | _ => (false, none, "malformed")

/-- `verify_license` after `sign_license` with the same secret: the token
always authenticates, and the outcome is decided entirely by the payload's
shape and its `exp` member. -/
theorem verify_license_sign (payload : Json) (secret : String) (now : Int)
    (hwf : jsonWF payload = true) :
    verify_license (sign_license payload secret) secret now =
      expOutcome payload now := by
  have hbody256 := utf8Encode_lt256 (jsonDumps payload)
  have hsig256 := hmacSha256_bytes_lt (utf8Encode secret)
    (utf8Encode (jsonDumps payload))
  rw [verify_license, sign_license]
  rw [splitToken_build _ _ (b64url_no_dot _ hbody256)]
  simp only []
  rw [unb64url_b64url _ hbody256]
  simp only []
  rw [unb64url_b64url _ hsig256]
  simp only []
  rw [if_pos trivial]
  rw [utf8Decode_encode (jsonDumps payload)]
  simp only []
  rw [show String.mk (jsonDumps payload).data = jsonDumps payload from rfl,
    jsonLoads_dumps payload hwf]
  rfl

/-- Verification of a canonically encoded token whose signature segment
carries exactly the MAC of its body: the signature check passes and the
outcome is decided by decoding and parsing the body. -/
theorem verify_license_auth (body : List Nat) (secret : String) (now : Int)
    (h256 : ∀ x ∈ body, x < 256) :
    verify_license (_b64url body ++ "." ++
        _b64url (hmacSha256 (utf8Encode secret) body)) secret now =
      (match utf8Decode body with
       | none => (false, none, "malformed")
       | some chars =>
         match jsonLoads (String.mk chars) with
         | none => (false, none, "malformed")
         | some payload => expOutcome payload now) := by
  have hsig256 := hmacSha256_bytes_lt (utf8Encode secret) body
  rw [verify_license, splitToken_build _ _ (b64url_no_dot _ h256)]
  simp only []
  rw [unb64url_b64url _ h256]
  simp only []
  rw [unb64url_b64url _ hsig256]
  simp only []
  rw [if_pos trivial]
  cases hd : utf8Decode body with
  | none => rfl
  | some chars =>
    simp only []
    cases hl : jsonLoads (String.mk chars) with
    | none => rfl
    | some payload =>
      rfl

/-- HMAC keys are zero-padded to the 64-byte block size, so a key extended
by zero bytes (still within one block) produces the same MAC. -/
theorem hmacSha256_key_zero_pad (key : List Nat) (k : Nat) (msg : List Nat)
    (hlen : key.length + k ≤ 64) :
    hmacSha256 (key ++ List.replicate k 0) msg = hmacSha256 key msg := by
  rw [hmacSha256, hmacSha256]
  rw [if_neg (by simp; omega), if_neg (by omega)]
  rw [List.append_assoc, ← List.replicate_add]
  congr 3
  · congr 2
    simp
    omega
  · congr 3
    simp
    omega

theorem dropWhile_no_dot_all : ∀ (l : List Char), '.' ∉ l →
    l.dropWhile (· ≠ '.') = []
  | [], _ => rfl
  | c :: tl, h => by
    have hc : c ≠ '.' := fun hEq => h (by rw [hEq]; simp)
    have htl : '.' ∉ tl := fun hm => h (by simp [hm])
    rw [List.dropWhile_cons, if_pos (by simp [hc]), dropWhile_no_dot_all tl htl]

/-- A token without a separator fails to unpack: `"malformed"`. -/
theorem verify_no_dot (token secret : String) (now : Int)
    (h : '.' ∉ token.data) :
    verify_license token secret now = (false, none, "malformed") := by
  have hsplit : splitToken token = none := by
    rw [splitToken, List.span_eq_take_drop, dropWhile_no_dot_all token.data h]
  rw [verify_license, hsplit]

/-- A token whose body segment does not base64-decode: `"malformed"`. -/
theorem verify_bad_body_segment (a b secret : String) (now : Int)
    (ha : '.' ∉ a.data) (hdec : _unb64url a = none) :
    verify_license (a ++ "." ++ b) secret now = (false, none, "malformed") := by
  rw [verify_license, splitToken_build a b ha]
  simp only []
  rw [hdec]

/-- A token whose signature segment does not base64-decode: `"malformed"`. -/
theorem verify_bad_sig_segment (a b secret : String) (now : Int)
    (ha : '.' ∉ a.data) (body : List Nat) (hdec : _unb64url a = some body)
    (hsig : _unb64url b = none) :
    verify_license (a ++ "." ++ b) secret now = (false, none, "malformed") := by
  rw [verify_license, splitToken_build a b ha]
  simp only []
  rw [hdec]
  simp only []
  rw [hsig]

/-- An authenticated body that does not decode and parse to a JSON object:
`"malformed"` (a failed UTF-8 decode, a JSON parse error, or a non-`dict`
payload, whose `.get` raises). -/
theorem verify_nonobject_body (body : List Nat) (secret : String) (now : Int)
    (h256 : ∀ x ∈ body, x < 256)
    (hnobj : ∀ entries : JsonObj, (utf8Decode body).bind
      (fun chars => jsonLoads (String.mk chars)) ≠ some (.obj entries)) :
    verify_license (_b64url body ++ "." ++
        _b64url (hmacSha256 (utf8Encode secret) body)) secret now =
      (false, none, "malformed") := by
  rw [verify_license_auth body secret now h256]
  cases hd : utf8Decode body with
  | none => rfl
  | some chars =>
    simp only []
    cases hl : jsonLoads (String.mk chars) with
    | none => rfl
    | some payload =>
      simp only []
      cases payload with
      | obj entries =>
        exact absurd (by rw [hd]; simp only [Option.some_bind]; exact hl)
          (hnobj entries)
      | null => rfl
      | bool v => rfl
      | int n => rfl
      | float ng ip fr ex => rfl
      | nan => rfl
      | inf ng => rfl
      | str sv => rfl
      | arr xs => rfl

/-- The authenticated outcome is `"ok"` when `exp` is absent or a future
integer. -/
theorem expOutcome_ok (entries : JsonObj) (now : Int)
    (hexp : objGet entries "exp" = none ∨
      ∃ e : Int, objGet entries "exp" = some (.int e) ∧ now < e) :
    expOutcome (.obj entries) now = (true, some (.obj entries), "ok") := by
  rw [expOutcome]
  rcases hexp with h | ⟨e, h, hlt⟩
  · rw [h]
  · rw [h]
    simp only []
    by_cases ht : pyTruthy (.int e) = true
    · rw [if_pos ht, show pyInt (.int e) = some e from rfl]
      simp only []
      rw [if_neg (by omega)]
    · rw [if_neg ht]

/-- `verify_license` depends on the secret only through the MAC it
computes: two secrets with pointwise equal MACs verify every token
identically. -/
theorem verify_secret_ext (t : String) (s1 s2 : String) (now : Int)
    (hkey : ∀ m, hmacSha256 (utf8Encode s2) m = hmacSha256 (utf8Encode s1) m) :
    verify_license t s2 now = verify_license t s1 now := by
  rw [verify_license, verify_license]
  cases splitToken t with
  | none => rfl
  | some p =>
    obtain ⟨a, b⟩ := p
    simp only []
    cases _unb64url a with
    | none => rfl
    | some body =>
      simp only []
      rw [hkey body]

/-- Verification of a canonically encoded body joined with an arbitrary
signature segment: the outcome is decided by how that segment decodes
against the body's MAC. -/
theorem verify_sig_segment (body : List Nat) (sigSeg secret : String)
    (now : Int) (h256 : ∀ x ∈ body, x < 256) :
    verify_license (_b64url body ++ "." ++ sigSeg) secret now =
      (match _unb64url sigSeg with
       | none => (false, none, "malformed")
       | some sig =>
         if hmacSha256 (utf8Encode secret) body = sig then
           (match utf8Decode body with
            | none => (false, none, "malformed")
            | some chars =>
              match jsonLoads (String.mk chars) with
              | none => (false, none, "malformed")
              | some payload => expOutcome payload now)
         else (false, none, "invalid-signature")) := by
  rw [verify_license, splitToken_build _ _ (b64url_no_dot _ h256)]
  simp only []
  rw [unb64url_b64url _ h256]
  simp only []
  cases _unb64url sigSeg with
  | none => rfl
  | some sig =>
    simp only []
    by_cases hEq : hmacSha256 (utf8Encode secret) body = sig
    · rw [if_pos hEq, if_pos hEq]
      cases utf8Decode body with
      | none => rfl
      | some chars =>
        simp only []
        cases jsonLoads (String.mk chars) with
        | none => rfl
        | some payload => cases payload <;> rfl
    · rw [if_neg hEq, if_neg hEq]

/-- A token whose body segment decodes to bytes whose MAC differs from the
(canonically encoded) signature bytes: `"invalid-signature"`. -/
theorem verify_body_segment (bodySeg : String) (body' sig : List Nat)
    (secret : String) (now : Int)
    (hdot : '.' ∉ bodySeg.data) (hdec : _unb64url bodySeg = some body')
    (hsig256 : ∀ x ∈ sig, x < 256)
    (hne : hmacSha256 (utf8Encode secret) body' ≠ sig) :
    verify_license (bodySeg ++ "." ++ _b64url sig) secret now =
      (false, none, "invalid-signature") := by
  rw [verify_license, splitToken_build _ _ hdot]
  simp only []
  rw [hdec]
  simp only []
  rw [unb64url_b64url _ hsig256]
  simp only []
  rw [if_neg hne]

/-! ## Claims -/

/-- **C1**: verifying a token produced by `sign_license` with the same
secret yields exactly `(True, payload, "ok")`, for every payload (a JSON
object, with or without an `exp` member) and every secret, provided the
payload has no `exp` or its `exp` is an integer in the future. -/
theorem verify_sign_ok (entries : JsonObj) (secret : String) (now : Int)
    (hwf : jsonWF (.obj entries) = true)
    (hexp : objGet entries "exp" = none ∨
      ∃ e : Int, objGet entries "exp" = some (.int e) ∧ now < e) :
    verify_license (sign_license (.obj entries) secret) secret now =
      (true, some (.obj entries), "ok") := by
  rw [verify_license_sign _ _ _ hwf, expOutcome]
  rcases hexp with h | ⟨e, h, hlt⟩
  · rw [h]
  · rw [h]
    simp only []
    by_cases ht : pyTruthy (.int e) = true
    · rw [if_pos ht, show pyInt (.int e) = some e from rfl]
      simp only []
      rw [if_neg (by omega)]
    · rw [if_neg ht]

/-- Witness for **C1**: a payload without `exp` and one with a future
`exp`, at concrete secrets and time. -/
theorem verify_sign_ok_witness :
    verify_license
        (sign_license (.obj (.cons "plan" (.str "pro") .nil)) "hunter2")
        "hunter2" 1700000000 =
      (true, some (.obj (.cons "plan" (.str "pro") .nil)), "ok") ∧
    verify_license
        (sign_license (.obj (.cons "plan" (.str "agency")
          (.cons "exp" (.int 1700003600) .nil))) "k2")
        "k2" 1700000000 =
      (true, some (.obj (.cons "plan" (.str "agency")
        (.cons "exp" (.int 1700003600) .nil))), "ok") :=
  ⟨verify_sign_ok _ "hunter2" 1700000000 (by decide) (Or.inl (by decide)),
   verify_sign_ok _ "k2" 1700000000 (by decide)
     (Or.inr ⟨1700003600, by decide, by decide⟩)⟩

/-- Counterexample to **C5** as stated: at current time `now = 1`, a token
signed with `exp = now - 1 = 0` verifies as `"ok"`, not `"expired"` — the
code's truthiness test `payload.get("exp")` treats `exp = 0` as absent. -/
theorem expiry_boundary_cex :
    (1 : Int) - 1 = 0 ∧
    verify_license (sign_license (.obj (.cons "exp" (.int 0) .nil)) "s") "s" 1 =
      (true, some (.obj (.cons "exp" (.int 0) .nil)), "ok") := by
  constructor
  · decide
  · rw [verify_license_sign _ _ _ (by decide)]
    decide

/-- **C5** (amended): for an authentically signed token, `exp = now - 1`
yields `"expired"` provided that value is non-zero (`exp = 0` is treated as
absent by the truthiness check); `exp = now + 3600` yields `"ok"`; absent
`exp` yields `"ok"` at every current time. -/
theorem expiry_boundary (entries : JsonObj) (secret : String) (now : Int)
    (hwf : jsonWF (.obj entries) = true) :
    (∀ e : Int, objGet entries "exp" = some (.int e) → e = now - 1 → e ≠ 0 →
      verify_license (sign_license (.obj entries) secret) secret now =
        (false, some (.obj entries), "expired")) ∧
    (∀ e : Int, objGet entries "exp" = some (.int e) → e = now + 3600 →
      verify_license (sign_license (.obj entries) secret) secret now =
        (true, some (.obj entries), "ok")) ∧
    (objGet entries "exp" = none →
      verify_license (sign_license (.obj entries) secret) secret now =
        (true, some (.obj entries), "ok")) := by
  refine ⟨fun e he h1 h0 => ?_, fun e he h1 => ?_, fun he => ?_⟩
  · rw [verify_license_sign _ _ _ hwf, expOutcome, he]
    simp only []
    rw [if_pos (by simp [pyTruthy]; omega), show pyInt (.int e) = some e from rfl]
    simp only []
    rw [if_pos (by omega)]
  · rw [verify_license_sign _ _ _ hwf, expOutcome, he]
    simp only []
    by_cases ht : pyTruthy (.int e) = true
    · rw [if_pos ht, show pyInt (.int e) = some e from rfl]
      simp only []
      rw [if_neg (by omega)]
    · rw [if_neg ht]
  · rw [verify_license_sign _ _ _ hwf, expOutcome, he]

/-- Witness for the amended **C5**: `exp = now - 1`, `exp = now + 3600` and
absent `exp` at `now = 1700000000`. -/
theorem expiry_boundary_witness :
    verify_license (sign_license (.obj (.cons "exp" (.int 1699999999) .nil)) "s")
        "s" 1700000000 =
      (false, some (.obj (.cons "exp" (.int 1699999999) .nil)), "expired") ∧
    verify_license (sign_license (.obj (.cons "exp" (.int 1700003600) .nil)) "s")
        "s" 1700000000 =
      (true, some (.obj (.cons "exp" (.int 1700003600) .nil)), "ok") ∧
    verify_license (sign_license (.obj .nil) "s") "s" 1700000000 =
      (true, some (.obj .nil), "ok") :=
  ⟨(expiry_boundary _ "s" 1700000000 (by decide)).1 1699999999 (by decide)
      (by decide) (by decide),
   (expiry_boundary _ "s" 1700000000 (by decide)).2.1 1700003600 (by decide)
      (by decide),
   (expiry_boundary _ "s" 1700000000 (by decide)).2.2 (by decide)⟩

/-- **C9**: a canonically encoded token whose signature is exactly the MAC
of its body, whose body parses to a JSON object with a truthy `exp` that
`int(..)` cannot coerce (for example the string `"soon"`), verifies to
`(False, None, "malformed")` — the payload is withheld even though the
signature already authenticated.  (`pyInt` models `int(..)` on ASCII
strings, hence the ASCII hypothesis for string `exp` values.) -/
theorem exp_uncoercible_malformed (body : List Nat) (secret : String)
    (now : Int) (h256 : ∀ x ∈ body, x < 256) (entries : JsonObj) (e : Json)
    (hdec : (utf8Decode body).bind (fun chars => jsonLoads (String.mk chars)) =
      some (.obj entries))
    (hexp : objGet entries "exp" = some e) (htru : pyTruthy e = true)
    (_hascii : ∀ sv : String, e = .str sv → ∀ c ∈ sv.data, c.toNat < 128)
    (hint : pyInt e = none) :
    verify_license (_b64url body ++ "." ++
        _b64url (hmacSha256 (utf8Encode secret) body)) secret now =
      (false, none, "malformed") := by
  rw [verify_license_auth body secret now h256]
  cases hd : utf8Decode body with
  | none => rw [hd] at hdec
  | some chars =>
    rw [hd] at hdec
    simp only [Option.some_bind] at hdec
    simp only []
    rw [hdec]
    simp only []
    rw [expOutcome, hexp]
    simp only []
    rw [if_pos htru, hint]

/-- Witness for **C9**: payload `{"exp": "soon"}`, whose `exp` is a truthy
ASCII string that `int(..)` rejects. -/
theorem exp_uncoercible_malformed_witness :
    verify_license
        (_b64url (utf8Encode (jsonDumps (.obj (.cons "exp" (.str "soon") .nil)))) ++
          "." ++ _b64url (hmacSha256 (utf8Encode "s")
            (utf8Encode (jsonDumps (.obj (.cons "exp" (.str "soon") .nil))))))
        "s" 1700000000 =
      (false, none, "malformed") :=
  exp_uncoercible_malformed _ "s" 1700000000
    (by decide) (.cons "exp" (.str "soon") .nil) (.str "soon")
    (by decide) (by decide) (by decide)
    (by intro sv hsv; cases hsv; decide) (by decide)

/-- **C3**: the entitlement resolver is total over strings and implements
exactly the table: `"agency" ↦ (200, 15, export)`, `"pro" ↦ (20, 12,
export)`, and every other string — `"free"`, `""`, unrecognized strings —
falls to the baseline `(2, 5, no export)`. -/
theorem plan_limits_table :
    plan_limits "agency" = ⟨200, 15, true⟩ ∧
    plan_limits "pro" = ⟨20, 12, true⟩ ∧
    ∀ plan : String, plan ≠ "agency" → plan ≠ "pro" →
      plan_limits plan = ⟨2, 5, false⟩ := by
  refine ⟨by decide, by decide, fun plan h1 h2 => ?_⟩
  simp [plan_limits, h1, h2]

/-- Witness for **C3**: the baseline row at `"free"`, `""` and
`"unknown-plan"`. -/
theorem plan_limits_table_witness :
    plan_limits "free" = ⟨2, 5, false⟩ ∧ plan_limits "" = ⟨2, 5, false⟩ ∧
    plan_limits "unknown-plan" = ⟨2, 5, false⟩ :=
  ⟨plan_limits_table.2.2 "free" (by decide) (by decide),
   plan_limits_table.2.2 "" (by decide) (by decide),
   plan_limits_table.2.2 "unknown-plan" (by decide) (by decide)⟩

/-- **C7**: the URL-safe base64 codec round-trips: for every byte sequence,
including the empty one and every length class mod 3, decoding the
padding-stripped encoding yields the original bytes. -/
theorem b64url_roundtrip (bs : List Nat) (h : ∀ x ∈ bs, x < 256) :
    _unb64url (_b64url bs) = some bs :=
  unb64url_b64url bs h

/-- Witness for **C7**: concrete byte lists of each residue mod 3
(requiring 0, 1 and 2 stripped padding characters) and the empty list. -/
theorem b64url_roundtrip_witness :
    _unb64url (_b64url []) = some [] ∧
    _unb64url (_b64url [102]) = some [102] ∧
    _unb64url (_b64url [102, 111]) = some [102, 111] ∧
    _unb64url (_b64url [102, 111, 111]) = some [102, 111, 111] ∧
    _unb64url (_b64url [255, 0, 254, 1]) = some [255, 0, 254, 1] :=
  ⟨b64url_roundtrip [] (by decide), b64url_roundtrip [102] (by decide),
   b64url_roundtrip [102, 111] (by decide),
   b64url_roundtrip [102, 111, 111] (by decide),
   b64url_roundtrip [255, 0, 254, 1] (by decide)⟩

/-- Components of an equality between verifier result triples. -/
theorem triple_status {b1 b2 : Bool} {p1 p2 : Option Json} {s1 s2 : String}
    (h : (b1, p1, s1) = (b2, p2, s2)) : s1 = s2 :=
  congrArg (fun t => t.2.2) h

/-- The payload component of an equality between verifier result triples. -/
theorem triple_payload {b1 b2 : Bool} {p1 p2 : Option Json} {s1 s2 : String}
    (h : (b1, p1, s1) = (b2, p2, s2)) : p1 = p2 :=
  congrArg (fun t => t.2.1) h

/-- **C6**: whenever `verify_license` returns `"invalid-signature"` the
payload slot is `None` (even though the body may be syntactically
decodable), and whenever it returns `"expired"` the payload slot holds the
actual decoded payload — the value obtained by base64-decoding the body
segment, UTF-8-decoding it and JSON-parsing it — never `None`. -/
theorem payload_withholding (token secret : String) (now : Int) :
    (∀ b pl, verify_license token secret now = (b, pl, "invalid-signature") →
      pl = none) ∧
    (∀ b pl, verify_license token secret now = (b, pl, "expired") →
      ∃ (p : Json) (bodySeg sigSeg : String) (body : List Nat) (chars : List Char),
        pl = some p ∧ splitToken token = some (bodySeg, sigSeg) ∧
        _unb64url bodySeg = some body ∧ utf8Decode body = some chars ∧
        jsonLoads (String.mk chars) = some p) := by
  rw [verify_license]
  cases hs : splitToken token with
  | none =>
    refine ⟨fun b pl h => absurd (triple_status h) (by decide),
      fun b pl h => absurd (triple_status h) (by decide)⟩
  | some pr =>
    obtain ⟨bodySeg, sigSeg⟩ := pr
    simp only []
    cases hb : _unb64url bodySeg with
    | none =>
      refine ⟨fun b pl h => absurd (triple_status h) (by decide),
        fun b pl h => absurd (triple_status h) (by decide)⟩
    | some body =>
      simp only []
      cases hsg : _unb64url sigSeg with
      | none =>
        refine ⟨fun b pl h => absurd (triple_status h) (by decide),
          fun b pl h => absurd (triple_status h) (by decide)⟩
      | some sig =>
        simp only []
        by_cases hcmp : hmacSha256 (utf8Encode secret) body = sig
        · rw [if_pos hcmp]
          cases hd : utf8Decode body with
          | none =>
            refine ⟨fun b pl h => absurd (triple_status h) (by decide),
              fun b pl h => absurd (triple_status h) (by decide)⟩
          | some chars =>
            simp only []
            cases hl : jsonLoads (String.mk chars) with
            | none =>
              refine ⟨fun b pl h => absurd (triple_status h) (by decide),
                fun b pl h => absurd (triple_status h) (by decide)⟩
            | some payload =>
              simp only []
              cases payload with
              | obj entries =>
                simp only []
                cases hg : objGet entries "exp" with
                | none =>
                  refine ⟨fun b pl h =>
                      absurd (triple_status h) (by decide),
                    fun b pl h =>
                      absurd (triple_status h) (by decide)⟩
                | some e =>
                  simp only []
                  by_cases ht : pyTruthy e = true
                  · rw [if_pos ht]
                    cases hi : pyInt e with
                    | none =>
                      refine ⟨fun b pl h =>
                          absurd (triple_status h) (by decide),
                        fun b pl h =>
                          absurd (triple_status h) (by decide)⟩
                    | some ex =>
                      simp only []
                      by_cases hnow : now > ex
                      · rw [if_pos hnow]
                        refine ⟨fun b pl h =>
                            absurd (triple_status h) (by decide),
                          fun b pl h => ?_⟩
                        exact ⟨.obj entries, bodySeg, sigSeg, body, chars,
                          (triple_payload h).symm, rfl, hb, hd, hl⟩
                      · rw [if_neg hnow]
                        refine ⟨fun b pl h =>
                            absurd (triple_status h) (by decide),
                          fun b pl h =>
                            absurd (triple_status h) (by decide)⟩
                  · rw [if_neg ht]
                    refine ⟨fun b pl h =>
                        absurd (triple_status h) (by decide),
                      fun b pl h =>
                        absurd (triple_status h) (by decide)⟩
              | null =>
                refine ⟨fun b pl h =>
                    absurd (triple_status h) (by decide),
                  fun b pl h => absurd (triple_status h) (by decide)⟩
              | bool v =>
                refine ⟨fun b pl h =>
                    absurd (triple_status h) (by decide),
                  fun b pl h => absurd (triple_status h) (by decide)⟩
              | int n =>
                refine ⟨fun b pl h =>
                    absurd (triple_status h) (by decide),
                  fun b pl h => absurd (triple_status h) (by decide)⟩
              | float ng ip fr ex =>
                refine ⟨fun b pl h =>
                    absurd (triple_status h) (by decide),
                  fun b pl h => absurd (triple_status h) (by decide)⟩
              | nan =>
                refine ⟨fun b pl h =>
                    absurd (triple_status h) (by decide),
                  fun b pl h => absurd (triple_status h) (by decide)⟩
              | inf ng =>
                refine ⟨fun b pl h =>
                    absurd (triple_status h) (by decide),
                  fun b pl h => absurd (triple_status h) (by decide)⟩
              | str sv =>
                refine ⟨fun b pl h =>
                    absurd (triple_status h) (by decide),
                  fun b pl h => absurd (triple_status h) (by decide)⟩
              | arr xs =>
                refine ⟨fun b pl h =>
                    absurd (triple_status h) (by decide),
                  fun b pl h => absurd (triple_status h) (by decide)⟩
        · rw [if_neg hcmp]
          refine ⟨fun b pl h => (triple_payload h).symm,
            fun b pl h => absurd (triple_status h) (by decide)⟩

set_option maxRecDepth 40000 in
/-- Witness for **C6**: a token with a decodable JSON body but a wrong
signature gets `(False, None, "invalid-signature")`, and an expired signed
token carries its decoded payload. -/
theorem payload_withholding_witness :
    verify_license "e30.AAAA" "s" 1700000000 =
      (false, none, "invalid-signature") ∧
    (∀ b pl, verify_license "e30.AAAA" "s" 1700000000 =
      (b, pl, "invalid-signature") → pl = none) ∧
    (∀ b pl,
      verify_license (sign_license (.obj (.cons "exp" (.int 5) .nil)) "s") "s"
          1700000000 = (b, pl, "expired") →
      ∃ (p : Json) (bodySeg sigSeg : String) (body : List Nat)
          (chars : List Char),
        pl = some p ∧
        splitToken (sign_license (.obj (.cons "exp" (.int 5) .nil)) "s") =
          some (bodySeg, sigSeg) ∧
        _unb64url bodySeg = some body ∧ utf8Decode body = some chars ∧
        jsonLoads (String.mk chars) = some p) :=
  ⟨by decide,
   (payload_withholding "e30.AAAA" "s" 1700000000).1,
   (payload_withholding (sign_license (.obj (.cons "exp" (.int 5) .nil)) "s")
     "s" 1700000000).2⟩

/-- **C10**: for every secret (and any current time), the token `"."` —
both segments empty, each decoding to the empty byte string — verifies to
`(False, None, "invalid-signature")`, not `"malformed"`: the recomputed
HMAC-SHA256 digest has 32 bytes and so never equals the empty decoded
signature. -/
theorem verify_license_dot_invalid_signature (secret : String) (now : Int) :
    verify_license "." secret now = (false, none, "invalid-signature") := by
  have hsplit : splitToken "." = some ("", "") := rfl
  have hemp : _unb64url "" = some [] := rfl
  unfold verify_license
  rw [hsplit]
  simp only [hemp]
  rw [if_neg (hmacSha256_ne_nil _ _)]

set_option maxRecDepth 100000 in
/-- Counterexample to **C4** as stated: (i) a token containing characters
outside the URL-safe base64 alphabet (four `$` appended to the signature
segment) verifies as `"ok"`, not `"malformed"` — `base64.urlsafe_b64decode`
silently discards non-alphabet characters; (ii) a token whose body decodes
to bytes that are not valid JSON text yields `"invalid-signature"`, not
`"malformed"`, when its signature does not authenticate — the signature
comparison runs before `json.loads`. -/
theorem malformed_inputs_cex :
    '$' ∈ (sign_license (.obj (.cons "plan" (.str "pro") .nil)) "s"
      ++ "$$$$").data ∧
    b64val (b64translate '$') = none ∧
    verify_license (sign_license (.obj (.cons "plan" (.str "pro") .nil)) "s"
        ++ "$$$$") "s" 0 =
      (true, some (.obj (.cons "plan" (.str "pro") .nil)), "ok") ∧
    _unb64url "AAAA" = some [0, 0, 0] ∧
    (utf8Decode [0, 0, 0]).bind (fun chars => jsonLoads (String.mk chars)) =
      none ∧
    verify_license "AAAA.AAAA" "s" 0 = (false, none, "invalid-signature") := by
  refine ⟨by decide, by decide, ?_, by decide, by decide, by decide⟩
  decide

/-- **C4** (amended): `verify_license` returns `(False, None, "malformed")`
for: a token with no `.` separator; a token whose body segment fails to
base64-decode; a token whose signature segment fails to base64-decode; and
an authenticated token whose body does not UTF-8-decode and JSON-parse to
an object.  (Non-alphabet characters alone do not make decoding fail, and a
non-JSON body behind a non-authenticating signature yields
`"invalid-signature"` instead: see the counterexample.) -/
theorem malformed_inputs :
    (∀ (token secret : String) (now : Int), '.' ∉ token.data →
      verify_license token secret now = (false, none, "malformed")) ∧
    (∀ (a b secret : String) (now : Int), '.' ∉ a.data →
      _unb64url a = none →
      verify_license (a ++ "." ++ b) secret now = (false, none, "malformed")) ∧
    (∀ (a b secret : String) (now : Int) (body : List Nat), '.' ∉ a.data →
      _unb64url a = some body → _unb64url b = none →
      verify_license (a ++ "." ++ b) secret now = (false, none, "malformed")) ∧
    (∀ (body : List Nat) (secret : String) (now : Int),
      (∀ x ∈ body, x < 256) →
      (∀ entries : JsonObj, (utf8Decode body).bind
        (fun chars => jsonLoads (String.mk chars)) ≠ some (.obj entries)) →
      verify_license (_b64url body ++ "." ++
          _b64url (hmacSha256 (utf8Encode secret) body)) secret now =
        (false, none, "malformed")) :=
  ⟨verify_no_dot,
   verify_bad_body_segment,
   fun a b secret now body ha hdec hsig =>
     verify_bad_sig_segment a b secret now ha body hdec hsig,
   verify_nonobject_body⟩

/-- Witness for the amended **C4**: each malformed path at a concrete
token. -/
theorem malformed_inputs_witness :
    verify_license "abc" "s" 0 = (false, none, "malformed") ∧
    verify_license ("x" ++ "." ++ "y") "s" 0 = (false, none, "malformed") ∧
    verify_license ("AA" ++ "." ++ "x") "s" 0 = (false, none, "malformed") ∧
    verify_license (_b64url [0, 0, 0] ++ "." ++
        _b64url (hmacSha256 (utf8Encode "s") [0, 0, 0])) "s" 0 =
      (false, none, "malformed") :=
  ⟨malformed_inputs.1 "abc" "s" 0 (by decide),
   malformed_inputs.2.1 "x" "y" "s" 0 (by decide) (by decide),
   malformed_inputs.2.2.1 "AA" "x" "s" 0 [0] (by decide) (by decide)
     (by decide),
   malformed_inputs.2.2.2 [0, 0, 0] "s" 0 (by decide)
     (fun entries h => by
       have hn : (utf8Decode [0, 0, 0]).bind
           (fun chars => jsonLoads (String.mk chars)) = none := by decide
       rw [hn] at h
       cases h)⟩

set_option maxRecDepth 100000 in
/-- Counterexample to **C2** as stated: (i) flipping the final character of
a valid token's signature segment from `E` to `F` changes only base64 slack
bits — the segment still decodes to the same 32 MAC bytes, and the altered
token verifies `"ok"`, not `"invalid-signature"`; (ii) verifying under the
different secret `"s\x00"` (the original `"s"` extended by a zero byte,
which HMAC's zero-padding of short keys makes equivalent) also yields
`"ok"`. -/
theorem tamper_detection_cex :
    sign_license (.obj (.cons "plan" (.str "pro") .nil)) "s" =
      "eyJwbGFuIjoicHJvIn0.L9TshWgVWAKCnhUh8m4kKhrQmy7VswnGMghl7IJTYoE" ∧
    ("eyJwbGFuIjoicHJvIn0.L9TshWgVWAKCnhUh8m4kKhrQmy7VswnGMghl7IJTYoF" :
        String) ≠
      "eyJwbGFuIjoicHJvIn0.L9TshWgVWAKCnhUh8m4kKhrQmy7VswnGMghl7IJTYoE" ∧
    ("eyJwbGFuIjoicHJvIn0.L9TshWgVWAKCnhUh8m4kKhrQmy7VswnGMghl7IJTYoF" :
        String).data.dropLast =
      ("eyJwbGFuIjoicHJvIn0.L9TshWgVWAKCnhUh8m4kKhrQmy7VswnGMghl7IJTYoE" :
        String).data.dropLast ∧
    verify_license
        "eyJwbGFuIjoicHJvIn0.L9TshWgVWAKCnhUh8m4kKhrQmy7VswnGMghl7IJTYoF"
        "s" 0 =
      (true, some (.obj (.cons "plan" (.str "pro") .nil)), "ok") ∧
    ("s\x00" : String) ≠ "s" ∧
    verify_license (sign_license (.obj (.cons "plan" (.str "pro") .nil)) "s")
        "s\x00" 0 =
      (true, some (.obj (.cons "plan" (.str "pro") .nil)), "ok") := by
  refine ⟨by decide, by decide, by decide, ?_, by decide, ?_⟩
  · decide
  · decide

/-- **C2** (amended): for a canonically signed token, replacing the
signature segment by one that decodes to different bytes yields
`"invalid-signature"`, and by one that fails to decode yields
`"malformed"`; but a segment that still decodes to the very same MAC bytes
(e.g. a flip confined to base64 slack bits) verifies `"ok"`.  Replacing the
body segment by one decoding to bytes with a different MAC yields
`"invalid-signature"`.  Verifying under a secret whose UTF-8 encoding
differs by appended zero bytes (within HMAC's 64-byte block) still yields
`"ok"`; a secret whose MAC of the body differs yields
`"invalid-signature"`.  No input raises: every outcome is a returned
triple. -/
theorem tamper_detection (entries : JsonObj) (secret : String) (now : Int)
    (hwf : jsonWF (.obj entries) = true)
    (hexp : objGet entries "exp" = none ∨
      ∃ e : Int, objGet entries "exp" = some (.int e) ∧ now < e) :
    (∀ (sigSeg : String) (sig : List Nat), _unb64url sigSeg = some sig →
      sig ≠ hmacSha256 (utf8Encode secret)
        (utf8Encode (jsonDumps (.obj entries))) →
      verify_license (_b64url (utf8Encode (jsonDumps (.obj entries)))
          ++ "." ++ sigSeg) secret now =
        (false, none, "invalid-signature")) ∧
    (∀ sigSeg : String, _unb64url sigSeg = none →
      verify_license (_b64url (utf8Encode (jsonDumps (.obj entries)))
          ++ "." ++ sigSeg) secret now =
        (false, none, "malformed")) ∧
    (∀ sigSeg : String, _unb64url sigSeg = some (hmacSha256
        (utf8Encode secret) (utf8Encode (jsonDumps (.obj entries)))) →
      verify_license (_b64url (utf8Encode (jsonDumps (.obj entries)))
          ++ "." ++ sigSeg) secret now =
        (true, some (.obj entries), "ok")) ∧
    (∀ (bodySeg : String) (body' : List Nat), '.' ∉ bodySeg.data →
      _unb64url bodySeg = some body' →
      hmacSha256 (utf8Encode secret) body' ≠ hmacSha256 (utf8Encode secret)
        (utf8Encode (jsonDumps (.obj entries))) →
      verify_license (bodySeg ++ "." ++ _b64url (hmacSha256
          (utf8Encode secret) (utf8Encode (jsonDumps (.obj entries)))))
        secret now = (false, none, "invalid-signature")) ∧
    (∀ (secret2 : String) (k : Nat),
      utf8Encode secret2 = utf8Encode secret ++ List.replicate k 0 →
      (utf8Encode secret).length + k ≤ 64 →
      verify_license (sign_license (.obj entries) secret) secret2 now =
        (true, some (.obj entries), "ok")) ∧
    (∀ secret2 : String,
      hmacSha256 (utf8Encode secret2) (utf8Encode (jsonDumps (.obj entries)))
        ≠ hmacSha256 (utf8Encode secret)
          (utf8Encode (jsonDumps (.obj entries))) →
      verify_license (sign_license (.obj entries) secret) secret2 now =
        (false, none, "invalid-signature")) := by
  have h256 := utf8Encode_lt256 (jsonDumps (.obj entries))
  refine ⟨fun sigSeg sig hdec hne => ?_, fun sigSeg hdec => ?_,
    fun sigSeg hdec => ?_, fun bodySeg body' hdot hdec hne => ?_,
    fun secret2 k h2 hlen => ?_, fun secret2 hne => ?_⟩
  · rw [verify_sig_segment _ _ _ _ h256, hdec]
    simp only []
    rw [if_neg (fun h => hne h.symm)]
  · rw [verify_sig_segment _ _ _ _ h256, hdec]
  · rw [verify_sig_segment _ _ _ _ h256, hdec]
    simp only []
    rw [if_pos trivial, utf8Decode_encode (jsonDumps (.obj entries))]
    simp only []
    rw [show String.mk (jsonDumps (.obj entries)).data =
      jsonDumps (.obj entries) from rfl, jsonLoads_dumps _ hwf]
    simp only []
    exact expOutcome_ok entries now hexp
  · exact verify_body_segment bodySeg body' _ secret now hdot hdec
      (hmacSha256_bytes_lt _ _) hne
  · have hkey : ∀ m, hmacSha256 (utf8Encode secret2) m =
        hmacSha256 (utf8Encode secret) m := by
      intro m
      rw [h2]
      exact hmacSha256_key_zero_pad _ k m hlen
    rw [verify_secret_ext _ secret secret2 now hkey,
      verify_license_sign _ _ _ hwf]
    exact expOutcome_ok entries now hexp
  · rw [sign_license]
    exact verify_body_segment _ _ _ secret2 now (b64url_no_dot _ h256)
      (unb64url_b64url _ h256) (hmacSha256_bytes_lt _ _) hne

set_option maxRecDepth 100000 in
/-- Witness for the amended **C2**: each tampering mode at the concrete
payload `{"plan": "pro"}`, secret `"s"`, time `0`. -/
theorem tamper_detection_witness :
    verify_license (_b64url (utf8Encode (jsonDumps
        (.obj (.cons "plan" (.str "pro") .nil)))) ++ "." ++ "AAAA") "s" 0 =
      (false, none, "invalid-signature") ∧
    verify_license (_b64url (utf8Encode (jsonDumps
        (.obj (.cons "plan" (.str "pro") .nil)))) ++ "." ++ "x") "s" 0 =
      (false, none, "malformed") ∧
    verify_license (_b64url (utf8Encode (jsonDumps
        (.obj (.cons "plan" (.str "pro") .nil)))) ++ "." ++
        _b64url (hmacSha256 (utf8Encode "s") (utf8Encode (jsonDumps
          (.obj (.cons "plan" (.str "pro") .nil)))))) "s" 0 =
      (true, some (.obj (.cons "plan" (.str "pro") .nil)), "ok") ∧
    verify_license ("AAAA" ++ "." ++ _b64url (hmacSha256 (utf8Encode "s")
        (utf8Encode (jsonDumps (.obj (.cons "plan" (.str "pro") .nil))))))
      "s" 0 = (false, none, "invalid-signature") ∧
    verify_license (sign_license (.obj (.cons "plan" (.str "pro") .nil)) "s")
      "s\x00" 0 = (true, some (.obj (.cons "plan" (.str "pro") .nil)), "ok") ∧
    verify_license (sign_license (.obj (.cons "plan" (.str "pro") .nil)) "s")
      "t" 0 = (false, none, "invalid-signature") :=
  have h := tamper_detection (.cons "plan" (.str "pro") .nil) "s" 0
    (by decide) (Or.inl (by decide))
  ⟨h.1 "AAAA" [0, 0, 0] (by decide) (by decide),
   h.2.1 "x" (by decide),
   h.2.2.1 _ (unb64url_b64url _ (hmacSha256_bytes_lt _ _)),
   h.2.2.2.1 "AAAA" [0, 0, 0] (by decide) (by decide) (by decide),
   h.2.2.2.2.1 "s\x00" 1 (by decide) (by decide),
   h.2.2.2.2.2 "t" (by decide)⟩

set_option maxRecDepth 100000 in
/-- Counterexample to **C8** as stated: the payloads
`{"a": 1, "b": 2}` and `{"b": 2, "a": 1}` denote the same logical
key-to-value mapping (same two keys, same value under each), yet
`sign_license` produces different tokens — `json.dumps` preserves insertion
order, so the serialized bytes, the MAC, and both segments differ. -/
theorem sign_deterministic_cex :
    objKeys (.cons "a" (.int 1) (.cons "b" (.int 2) .nil)) = ["a", "b"] ∧
    objKeys (.cons "b" (.int 2) (.cons "a" (.int 1) .nil)) = ["b", "a"] ∧
    objGet (.cons "a" (.int 1) (.cons "b" (.int 2) .nil)) "a" =
      objGet (.cons "b" (.int 2) (.cons "a" (.int 1) .nil)) "a" ∧
    objGet (.cons "a" (.int 1) (.cons "b" (.int 2) .nil)) "b" =
      objGet (.cons "b" (.int 2) (.cons "a" (.int 1) .nil)) "b" ∧
    sign_license (.obj (.cons "a" (.int 1) (.cons "b" (.int 2) .nil))) "s" ≠
      sign_license (.obj (.cons "b" (.int 2) (.cons "a" (.int 1) .nil))) "s"
    := by
  refine ⟨by decide, by decide, by decide, by decide, ?_⟩
  decide

/-- **C8** (amended): `sign_license` is deterministic on payload
*representations*, not on logical mappings: for well-formed payloads, two
payloads produce the identical token if and only if they are the same value
(same keys in the same insertion order, same values) — so reordering keys
of the same mapping changes the token: see the counterexample. -/
theorem sign_deterministic (p1 p2 : Json) (secret : String)
    (h1 : jsonWF p1 = true) (h2 : jsonWF p2 = true) :
    sign_license p1 secret = sign_license p2 secret ↔ p1 = p2 := by
  constructor
  · intro h
    rw [sign_license, sign_license] at h
    have h256a := utf8Encode_lt256 (jsonDumps p1)
    have h256b := utf8Encode_lt256 (jsonDumps p2)
    have hsplit := congrArg splitToken h
    rw [splitToken_build _ _ (b64url_no_dot _ h256a),
      splitToken_build _ _ (b64url_no_dot _ h256b)] at hsplit
    have hA : _b64url (utf8Encode (jsonDumps p1)) =
        _b64url (utf8Encode (jsonDumps p2)) :=
      congrArg Prod.fst (Option.some.inj hsplit)
    have hdec := congrArg _unb64url hA
    rw [unb64url_b64url _ h256a, unb64url_b64url _ h256b] at hdec
    have hchars := congrArg utf8Decode (Option.some.inj hdec)
    rw [utf8Decode_encode, utf8Decode_encode] at hchars
    have hstr : jsonDumps p1 = jsonDumps p2 :=
      congrArg String.mk (Option.some.inj hchars)
    have hload := congrArg jsonLoads hstr
    rw [jsonLoads_dumps _ h1, jsonLoads_dumps _ h2] at hload
    exact Option.some.inj hload
  · intro h
    rw [h]

/-- Witness for the amended **C8**: the equivalence at two concrete
distinct payloads. -/
theorem sign_deterministic_witness :
    (sign_license (.obj (.cons "a" (.int 1) .nil)) "s" =
      sign_license (.obj (.cons "b" (.int 2) .nil)) "s") ↔
    (Json.obj (.cons "a" (.int 1) .nil) = .obj (.cons "b" (.int 2) .nil)) :=
  sign_deterministic _ _ "s" (by decide) (by decide)

end Licensing
